import Mathlib

/-!
Verification of the buffered delivery subsystem of the `accordkit/tracer`
repository: the overflow-aware per-session buffer, the guarded flush
coordinator, the round-robin drain, and the HTTP retry engine.

The development shallowly embeds the TypeScript sources:

* the refined `HttpSink` (`src/unnamed/part_003`) and the buffered mode of
  `BrowserSink` (`src/core/sinks/browserSink.ts`), which share verbatim the
  buffer / flush-guard / drain logic, are embedded once as a small-step state
  machine `SinkM` over explicit suspension points of the async code;
* the retry engine `sendBatchWithRetry` / `shouldRetry` / `parseRetryAfterMs`
  / `computeBackoffMs` of the refined `HttpSink` is embedded as pure functions
  driven by an oracle of fetch responses;
* the legacy `HttpSink` (`src/core/sinks/httpSink.ts`) single-queue sink and
  its `backoffDelay` are embedded separately as `LegacyM`;
* the option clamping of the `FileSink`, legacy `HttpSink` and legacy
  `BrowserSink` (`src/unnamed/part_002`) constructors is embedded directly.

Platform primitives are abstracted as usual for a shallow embedding: `fetch`
results come from an oracle list, `Math.random` is a rational parameter in
`[0,1)`, `Date.parse`/`Date.now` become integer millisecond timestamps, and
promises are identified by allocation-ordered ids whose resolution events are
logged.
-/

namespace Tracer

/-- Overflow policy of the buffered sinks
(`'auto-flush' | 'drop-oldest' | 'error'` in `types.ts`). -/
inductive OverflowPolicy
  | autoFlush
  | dropOldest
  | errorPolicy
deriving DecidableEq, Repr

/-- A buffered record: the destination key (session id) it was written under,
and its global write sequence number.  The source stores the serialized line
`JSON.stringify(e)`; the payload is opaque to the buffer, so the embedding
keeps only the identity of the record (its write index) plus its key. -/
abbrev Entry := String × Nat

/-- One drained batch (`string[]` in the source). -/
abbrev Batch := List Entry

/-- The per-session buffer map `buffers : Map<string, string[]>`, as an
insertion-ordered association list (JS `Map` iterates in insertion order);
keys are created on first write and never removed (drains leave `(k, [])`). -/
abbrev Buffers := List (String × List Entry)

/-- Sum of all queue lengths (the sink keeps this as `totalBuffered`). -/
def totalCount (bs : Buffers) : Nat :=
  (bs.map (fun p => p.2.length)).sum

/-- The pending queue of key `k` (empty when the key is absent). -/
def queueOf (bs : Buffers) (k : String) : List Entry :=
  ((bs.find? (fun p => p.1 == k)).map (fun p => p.2)).getD []

/-- `HttpSink.write` lines 89-91 / `BrowserSink.write` lines 118-120: make
sure the key has an array in the map (a fresh key is appended at the end of
the insertion order). -/
def ensureKey (bs : Buffers) (k : String) : Buffers :=
  if bs.any (fun p => p.1 == k) then bs else bs ++ [(k, [])]

/-- `arr.push(line)`: append a record at the tail of its key's queue (JS `Map`
keys are unique, so the first occurrence is the queue). -/
def pushRecord : Buffers → String → Entry → Buffers
  | [], _, _ => []
  | (k', q) :: rest, k, e =>
    if k' == k then (k', q ++ [e]) :: rest else (k', q) :: pushRecord rest k e

/-- `HttpSink.dropOldest` lines 303-311 / `BrowserSink.dropOldest` lines
319-328: `shift()` the head of the first non-empty queue in map insertion
order (an O(n) scan; the source comments call it 'the oldest item across
sessions'). -/
def dropOldestFn : Buffers → Buffers
  | [] => []
  | (k, q) :: rest =>
    match q with
    | [] => (k, []) :: dropOldestFn rest
    | _ :: t => (k, t) :: rest

/-- One round-robin pass of `drainBatches` (the `for (const sid of sessions)`
body, lines 164-177): `splice(0, batchSize)` from each queue in insertion
order, pushing the chunk when non-empty.  Keys stay in the map with `[]`. -/
def drainPass (n : Nat) : Buffers → List Batch × Buffers
  | [] => ([], [])
  | (k, q) :: rest =>
    let chunk := q.take n
    let res := drainPass n rest
    (if chunk.isEmpty then res.1 else chunk :: res.1, (k, q.drop n) :: res.2)

/-- Is every queue empty (the negation of the `any` flag of the drain loop)? -/
def allEmpty (bs : Buffers) : Bool :=
  bs.all (fun p => p.2.isEmpty)

/-- The `while (any)` loop of `drainBatches` (lines 162-177), fuelled: each
iteration performs one round-robin pass; a pass over all-empty buffers is the
identity, which is exactly when the source loop stops.  `totalCount bs` fuel
suffices whenever `n ≥ 1` (`drainLoop_allEmpty` below). -/
def drainLoop (n : Nat) : Nat → Buffers → List Batch × Buffers
  | 0, bs => ([], bs)
  | fuel + 1, bs =>
    if allEmpty bs then ([], bs)
    else
      let p := drainPass n bs
      let rest := drainLoop n fuel p.2
      (p.1 ++ rest.1, rest.2)

/-- `HttpSink.drainBatches` lines 155-181 (identical to
`BrowserSink.drainBatches` lines 235-261): early-out on an empty buffer, then
round-robin passes until every queue is empty. -/
def drainBatches (n : Nat) (bs : Buffers) : List Batch × Buffers :=
  if totalCount bs = 0 then ([], bs) else drainLoop n (totalCount bs) bs

/-- Well-formed buffer map: the keys are distinct and every record in key
`k`'s queue was written under key `k`. -/
def WfBuf (bs : Buffers) : Prop :=
  (bs.map Prod.fst).Nodup ∧ ∀ p ∈ bs, ∀ e ∈ p.2, e.1 = p.1

/-- The records of key `k` inside a list of batches, in batch order. -/
def restrictKey (k : String) (batches : List Batch) : List Entry :=
  batches.flatten.filter (fun e => e.1 == k)

/-- `write` composed buffer action (`HttpSink.write` lines 89-99): ensure the
key's array exists, then push the serialized record at its tail. -/
def writeBuf (bs : Buffers) (k : String) (e : Entry) : Buffers :=
  pushRecord (ensureKey bs k) k e

/-!
## The guarded flush coordinator as a small-step machine

`HttpSink` (part_003, lines 85-181) and `BrowserSink` buffered non-durable
mode (browserSink.ts, lines 104-261) share this logic verbatim.  The
scheduling model of the source is single-threaded cooperative concurrency:
the only suspension points inside a flush cycle are the awaited transport
calls, so the machine exposes exactly those as steps.  Promises are modelled
by allocation-ordered ids; `resolved` logs settlement events.

A subtlety of the source is modelled faithfully here: the flush body
`this.flushInFlight = (async () => { ... finally { this.flushInFlight =
null; } })()` runs synchronously to completion when the drain yields no
batches (there is no `await` on that path), so the `finally` executes
*before* the outer assignment and the field is left holding the
already-settled promise.  `flushInFlight` (the field) is therefore kept
separate from `cycle` (the actually-running drain). -/
/-- Options slice used by the coordinator. -/
structure SinkConfig where
  batchSize : Nat
  maxBuffer : Nat
  policy : OverflowPolicy
deriving DecidableEq, Repr

/-- The running flush cycle: its promise id and the drained batches whose
transport calls have not yet completed. -/
structure Cycle where
  pid : Nat
  pending : List Batch
deriving DecidableEq, Repr

/-- State of one buffered sink instance. `delivered`, `accepted` and
`resolved` are ghost logs (of batches handed to the transport, of records
actually enqueued, and of promise settlements). -/
structure SinkState where
  buffers : Buffers
  totalBuffered : Nat
  flushRequested : Bool
  flushInFlight : Option Nat
  cycle : Option Cycle
  closed : Bool
  nextPid : Nat
  nextSeq : Nat
  delivered : List Batch
  accepted : List Entry
  resolved : List Nat
deriving DecidableEq, Repr

/-- What a call returns to its caller. -/
inductive CallRet
  | unit
  | promise (pid : Nat)
  | resolvedNow
  | thrown
deriving DecidableEq, Repr

/-- `drainBatches` as the instance method sees it: the early-out guard reads
the `totalBuffered` field (line 156), which the state machine passes in. -/
def drainBatchesF (total n : Nat) (bs : Buffers) : List Batch × Buffers :=
  if total = 0 then ([], bs) else drainLoop n (totalCount bs) bs

/-- `flush()` (part_003 lines 121-146 / browserSink.ts lines 150-206,
non-durable branch): early return when closed and empty; join the in-flight
promise, marking a pass request; otherwise start the cycle — the async body
runs synchronously through the drain up to the first awaited send (or, on an
empty drain, to completion, leaving the settled promise in the field). -/
def flushCall (c : SinkConfig) (s : SinkState) : SinkState × CallRet :=
  if s.closed ∧ s.totalBuffered = 0 then (s, .resolvedNow)
  else
    match s.flushInFlight with
    | some pid => ({ s with flushRequested := true }, .promise pid)
    | none =>
      let pid := s.nextPid
      let d := drainBatchesF s.totalBuffered c.batchSize s.buffers
      let removed := (d.1.map List.length).sum
      if d.1.isEmpty then
        ({ s with flushRequested := false, buffers := d.2,
                  totalBuffered := s.totalBuffered - removed,
                  flushInFlight := some pid, cycle := none,
                  nextPid := pid + 1,
                  resolved := s.resolved ++ [pid] }, .promise pid)
      else
        ({ s with flushRequested := false, buffers := d.2,
                  totalBuffered := s.totalBuffered - removed,
                  flushInFlight := some pid,
                  cycle := some ⟨pid, d.1⟩,
                  nextPid := pid + 1 }, .promise pid)

/-- The `drop-oldest` arm of `write` (lines 111-113 calling 303-311): shift
the head of the first non-empty queue and decrement, when anything is
buffered at all. -/
def dropOldestStep (s : SinkState) : SinkState :=
  if allEmpty s.buffers then s
  else { s with buffers := dropOldestFn s.buffers,
                totalBuffered := s.totalBuffered - 1 }

/-- The push-and-count part of `write` (lines 98-104): append to the key's
queue, bump `totalBuffered` and, if a flush promise is stored, mark a pass
request.  The fresh record takes the next write sequence number. -/
def pushState (k : String) (s : SinkState) : SinkState :=
  { s with
    buffers := pushRecord (ensureKey s.buffers k) k (k, s.nextSeq)
    totalBuffered := s.totalBuffered + 1
    nextSeq := s.nextSeq + 1
    accepted := s.accepted ++ [(k, s.nextSeq)]
    flushRequested :=
      if s.flushInFlight.isSome then true else s.flushRequested }

/-- `write(sessionId, e)` (part_003 lines 85-119 / browserSink.ts lines
104-147, buffered mode): no-op when closed; ensure the key's array; throw on
`error` policy at capacity; push and count; mark a pass request if a flush is
in flight; apply the overflow policy when strictly over capacity. -/
def writeCall (c : SinkConfig) (k : String) (s : SinkState) :
    SinkState × CallRet :=
  if s.closed then (s, .unit)
  else if s.totalBuffered ≥ c.maxBuffer ∧ c.policy = .errorPolicy then
    ({ s with buffers := ensureKey s.buffers k }, .thrown)
  else
    let s1 := pushState k s
    if s1.totalBuffered > c.maxBuffer then
      match c.policy with
      | .autoFlush => flushCall c s1
      | .dropOldest => (dropOldestStep s1, .unit)
      | .errorPolicy => (s1, .unit)
    else (s1, .unit)

/-- Completion of the awaited transport call for the cycle's head batch,
together with the synchronous continuation that follows it (the rest of the
`for` loop and, after the last batch, the `do … while (flushRequested)`
check and the `finally`). -/
def deliverStep (c : SinkConfig) (s : SinkState) : SinkState :=
  match s.cycle with
  | none => s
  | some cyc =>
    match cyc.pending with
    | [] => s
    | b :: rest =>
      let s1 := { s with delivered := s.delivered ++ [b] }
      if rest.isEmpty then
        if s1.flushRequested then
          let d := drainBatchesF s1.totalBuffered c.batchSize s1.buffers
          let removed := (d.1.map List.length).sum
          let s2 := { s1 with
            flushRequested := false
            buffers := d.2
            totalBuffered := s1.totalBuffered - removed }
          if d.1.isEmpty then
            { s2 with
              cycle := none
              flushInFlight := none
              resolved := s2.resolved ++ [cyc.pid] }
          else
            { s2 with cycle := some ⟨cyc.pid, d.1⟩ }
        else
          { s1 with
            cycle := none
            flushInFlight := none
            resolved := s1.resolved ++ [cyc.pid] }
      else
        { s1 with cycle := some ⟨cyc.pid, rest⟩ }

/-- `close()` (part_003 lines 148-153 / browserSink.ts lines 209-221):
no-op once closed; otherwise set the flag, disarm the timer (not modelled)
and await `flush()`; the returned promise is the one `close` awaits. -/
def closeCall (c : SinkConfig) (s : SinkState) : SinkState × CallRet :=
  if s.closed then (s, .resolvedNow)
  else flushCall c { s with closed := true }

/-- External events: a producer write, an explicit or timer flush, the
completion of one awaited transport call, and close. -/
inductive Action
  | write (k : String)
  | flush
  | deliver
  | close
deriving DecidableEq, Repr

def step (c : SinkConfig) (s : SinkState) (a : Action) : SinkState × CallRet :=
  match a with
  | .write k => writeCall c k s
  | .flush => flushCall c s
  | .deliver => (deliverStep c s, .unit)
  | .close => closeCall c s

def initState : SinkState :=
  { buffers := [], totalBuffered := 0, flushRequested := false,
    flushInFlight := none, cycle := none, closed := false,
    nextPid := 0, nextSeq := 0, delivered := [], accepted := [],
    resolved := [] }

def run (c : SinkConfig) (acts : List Action) : SinkState :=
  acts.foldl (fun s a => (step c s a).1) initState

/-- Machine invariant tying the `totalBuffered` field to the buffer map, and
the running cycle to the `flushInFlight` field and the promise logs. -/
def Wf (s : SinkState) : Prop :=
  WfBuf s.buffers ∧
  s.totalBuffered = totalCount s.buffers ∧
  (∀ cyc, s.cycle = some cyc →
    s.flushInFlight = some cyc.pid ∧ cyc.pid ∉ s.resolved ∧
    cyc.pending ≠ [] ∧ [] ∉ cyc.pending) ∧
  (∀ pid, s.flushInFlight = some pid → pid < s.nextPid) ∧
  (∀ pid ∈ s.resolved, pid < s.nextPid)

/-- The batches drained by the running cycle whose transport calls are still
outstanding (none when no cycle runs). -/
def pendingBatches (s : SinkState) : List Batch :=
  match s.cycle with
  | none => []
  | some cyc => cyc.pending

/-- Per-key conservation: batches already handed to the transport, then the
batches drained but still queued inside the cycle, then the key's buffer
queue, concatenated in that order, are exactly the records accepted for that
key in write order. -/
def KeyTrace (k : String) (s : SinkState) : Prop :=
  restrictKey k s.delivered ++ restrictKey k (pendingBatches s)
    ++ queueOf s.buffers k = s.accepted.filter (fun e => e.1 == k)

/-!
## The HTTP retry engine

`HttpSink.sendBatchWithRetry` / `shouldRetry` / `parseRetryAfterMs` /
`computeBackoffMs` of the refined sink (part_003, lines 183-300), embedded as
pure functions.  `fetch` results are drawn from an oracle list (one entry per
attempt; an exhausted oracle behaves as a network error); `Date.parse` is
abstracted to its resulting millisecond timestamp (`none` for `NaN`);
`Date.now()` is the parameter `now`; the `Idempotency-Key` header supplier
only affects outgoing headers and is not modelled.  The caller-supplied drop
callback is a function that may throw (`Except.error`); every call site wraps
it in `try {} catch {}`, modelled by `swallow`. -/
/-- Per-batch retry policy (`types.ts`). -/
structure RetryPolicy where
  retries : Nat
  baseMs : Nat
  maxMs : Nat
  jitter : Bool
deriving DecidableEq, Repr

/-- A `Retry-After` header value after platform parsing: a digits-only string
(`/^\d+$/`) carries a seconds count; anything else goes through `Date.parse`,
yielding a millisecond timestamp or `none` for an unparseable date. -/
inductive RAHeader
  | secs (n : Nat)
  | httpDate (t : Option Int)
deriving DecidableEq, Repr

/-- `HttpSink.parseRetryAfterMs` (lines 200-216).  For the seconds form the
`Number.isFinite` guard never fires on a genuine natural (it only rejects
astronomically long digit strings whose float parse overflows). -/
def parseRetryAfterMs (h : Option RAHeader) (now : Int) : Option Int :=
  match h with
  | none => none
  | some (.secs n) => some ((n : Int) * 1000)
  | some (.httpDate none) => none
  | some (.httpDate (some t)) =>
    let delta := t - now
    if delta ≥ 1 then some delta
    else if delta ≥ 0 then some 1
    else none

/-- `HttpSink.shouldRetry` (lines 190-197). -/
def shouldRetry (status : Option Nat) : Bool :=
  match status with
  | none => true
  | some s =>
    if s = 408 then true
    else if s = 425 then true
    else if s = 429 then true
    else if 500 ≤ s ∧ s < 600 then true
    else false

/-- Result of one `fetch`: a thrown network error, or a response carrying its
status and `Retry-After` header. -/
inductive Resp
  | netErr
  | http (status : Nat) (retryAfter : Option RAHeader)
deriving DecidableEq, Repr

abbrev Oracle := List Resp

/-- Pop the next response; an exhausted oracle acts as a network error. -/
def nextResp : Oracle → Resp × Oracle
  | [] => (.netErr, [])
  | r :: rest => (r, rest)

/-- `res.ok`: status in the 2xx range. -/
def respOk (status : Nat) : Bool :=
  200 ≤ status ∧ status < 300

/-- The delay passed to `sleep`: either the parsed `Retry-After` hint or the
exponential backoff for this attempt number
(`retryAfterMs ?? this.computeBackoffMs(attempt)`, line 284). -/
inductive DelayMs
  | hinted (ms : Int)
  | backoff (attempt : Nat)
deriving DecidableEq, Repr

/-- Observable log of a delivery: the bodies POSTed (one per attempt), the
drop reports `(lines, err.status)` issued to `onDropBatch`, and the delays
slept. -/
structure SendLog where
  attempts : List (List String)
  drops : List (List String × Option Nat)
  sleeps : List DelayMs
deriving DecidableEq, Repr

def SendLog.app (a b : SendLog) : SendLog :=
  ⟨a.attempts ++ b.attempts, a.drops ++ b.drops, a.sleeps ++ b.sleeps⟩

/-- The drop callback may itself throw; `try { onDropBatch?.(lines, err) }
catch {}` discards its outcome either way. -/
def swallow : Except Unit Unit → Unit := fun _ => ()

/-- How one run of the retry loop ends. -/
inductive SendOutcome
  | delivered
  | dropped
  | needSplit
deriving DecidableEq, Repr

/-- The `for (;;)` retry loop of `sendBatchWithRetry` (lines 221-288),
fuelled: one fuel unit per iteration, and `retries + 2` units strictly bound
the iteration count (the loop exits no later than `attempt = retries + 1`).
`allow` is the `allowDownshift` parameter; `.needSplit` is produced exactly
where line 252 recurses, and is handled by the caller. -/
def sendLoop (rp : RetryPolicy) (now : Int)
    (cb : List String → Except Unit Unit) (lines : List String)
    (allow : Bool) : Nat → Nat → Oracle → Oracle × SendLog × SendOutcome
  | _, 0, o => (o, ⟨[], [], []⟩, .dropped)
  | attempt, fuel + 1, o =>
    let (r, o') := nextResp o
    let status : Option Nat := match r with
      | .netErr => none
      | .http st _ => if respOk st then none else some st
    match r with
    | .http st ra =>
      if respOk st then (o', ⟨[lines], [], []⟩, .delivered)
      else
        let retryAfterMs := parseRetryAfterMs ra now
        if st = 413 then
          if allow ∧ 1 < lines.length then (o', ⟨[lines], [], []⟩, .needSplit)
          else
            let _ := swallow (cb lines)
            (o', ⟨[lines], [(lines, some st)], []⟩, .dropped)
        else if ¬ shouldRetry (some st) then
          let _ := swallow (cb lines)
          (o', ⟨[lines], [(lines, some st)], []⟩, .dropped)
        else if rp.retries < attempt + 1 then
          let _ := swallow (cb lines)
          (o', ⟨[lines], [(lines, some st)], []⟩, .dropped)
        else
          let delay := match retryAfterMs with
            | some d => DelayMs.hinted d
            | none => DelayMs.backoff (attempt + 1)
          let rec1 := sendLoop rp now cb lines allow (attempt + 1) fuel o'
          (rec1.1, ⟨lines :: rec1.2.1.attempts, rec1.2.1.drops,
            delay :: rec1.2.1.sleeps⟩, rec1.2.2)
    | .netErr =>
      if rp.retries < attempt + 1 then
        let _ := swallow (cb lines)
        (o', ⟨[lines], [(lines, status)], []⟩, .dropped)
      else
        let rec1 := sendLoop rp now cb lines allow (attempt + 1) fuel o'
        (rec1.1, ⟨lines :: rec1.2.1.attempts, rec1.2.1.drops,
          DelayMs.backoff (attempt + 1) :: rec1.2.1.sleeps⟩, rec1.2.2)

/-- `sendBatchWithRetry(lines, false)`: the halves of a 413 split are sent
with `allowDownshift = false`, so a further 413 drops instead of splitting
(`sendLoop` never yields `.needSplit` when `allow = false`). -/
def sendBatchNoSplit (rp : RetryPolicy) (now : Int)
    (cb : List String → Except Unit Unit) (o : Oracle)
    (lines : List String) : Oracle × SendLog :=
  let r := sendLoop rp now cb lines false 0 (rp.retries + 2) o
  (r.1, r.2.1)

/-- `HttpSink.sendBatchWithRetry` (lines 218-289): run the retry loop; on the
one-shot 413 downshift (lines 251-258) split at `Math.floor(length / 2)` and
deliver each half independently with downshift disabled. -/
def sendBatchWithRetry (rp : RetryPolicy) (now : Int)
    (cb : List String → Except Unit Unit) (o : Oracle)
    (lines : List String) (allow : Bool) : Oracle × SendLog :=
  let r := sendLoop rp now cb lines allow 0 (rp.retries + 2) o
  match r.2.2 with
  | .needSplit =>
    let mid := lines.length / 2
    let r1 := sendBatchNoSplit rp now cb r.1 (lines.take mid)
    let r2 := sendBatchNoSplit rp now cb r1.1 (lines.drop mid)
    (r2.1, (r.2.1.app r1.2).app r2.2)
  | _ => (r.1, r.2.1)

/-- The delivery half of a flush cycle in the refined `HttpSink` (lines
134-138): deliver every non-empty drained batch in order, each via
`sendBatchWithRetry`. -/
def flushDeliverHttp (rp : RetryPolicy) (now : Int)
    (cb : List String → Except Unit Unit) :
    Oracle → List (List String) → Oracle × SendLog
  | o, [] => (o, ⟨[], [], []⟩)
  | o, lines :: rest =>
    if lines.isEmpty then flushDeliverHttp rp now cb o rest
    else
      let r1 := sendBatchWithRetry rp now cb o lines true
      let r2 := flushDeliverHttp rp now cb r1.1 rest
      (r2.1, r1.2.app r2.2)

/-- The non-durable delivery loop of `BrowserSink.flush` (lines 185-197):
each batch is sent once (`send` resolves on a 2xx or an accepted beacon and
rejects otherwise — its beacon/fetch internals are behind the oracle
verdict); a rejection drops that batch, reporting through the wrapped
callback, and the loop continues.  Returns (oracle, attempted bodies,
dropped batches). -/
def browserFlushLoop (cb : List String → Except Unit Unit) :
    Oracle → List (List String) →
      Oracle × List (List String) × List (List String)
  | o, [] => (o, [], [])
  | o, lines :: rest =>
    if lines.isEmpty then browserFlushLoop cb o rest
    else
      let (r, o') := nextResp o
      let ok := match r with
        | .http st _ => respOk st
        | .netErr => false
      let tail := browserFlushLoop cb o' rest
      if ok then (tail.1, lines :: tail.2.1, tail.2.2)
      else
        let _ := swallow (cb lines)
        (tail.1, lines :: tail.2.1, lines :: tail.2.2)

/-- `BrowserSink.sendNow` (browserSink.ts lines 292-301), the immediate-mode
delivery: one `send` attempt of `line + newline` (the beacon/fetch internals
are behind the oracle verdict); a rejection of `send` is caught, and
`[body.trim()]` — the serialized line — is reported through the wrapped drop
callback, after which `sendNow` completes normally.  The result is an
`Except`: a rejection of the returned promise would be `.error`, and the
`catch` makes every path `.ok` with (remaining oracle, attempted bodies,
dropped batches). -/
def sendNow (cb : List String → Except Unit Unit) (o : Oracle)
    (line : String) :
    Except Unit (Oracle × List (List String) × List (List String)) :=
  let (r, o') := nextResp o
  let ok := match r with
    | .http st _ => respOk st
    | .netErr => false
  if ok then .ok (o', [[line]], [])
  else
    let _ := swallow (cb [line])
    .ok (o', [[line]], [[line]])

/-- Immediate-mode `BrowserSink.write` (browserSink.ts lines 104-114): a
no-op once closed; otherwise `sendNow(JSON.stringify(e) + newline)` with a
`.catch` whose handler reports `[JSON.stringify(e)]` through the wrapped
callback.  The handler arm mirrors that `.catch`; it can only run if
`sendNow` rejects, which `sendNow_pathNeverRejects` below rules out. -/
def browserImmediateWrite (closedFlag : Bool)
    (cb : List String → Except Unit Unit) (o : Oracle) (line : String) :
    Except Unit (Oracle × List (List String) × List (List String)) :=
  if closedFlag then .ok (o, [], [])
  else
    match sendNow cb o line with
    | .ok v => .ok v
    | .error _ =>
      let _ := swallow (cb [line])
      .ok (o, [[line]], [[line]])

/-- `HttpSink.computeBackoffMs` (part_003 lines 291-295) in exact rational
arithmetic (JS float arithmetic is exact on these integer magnitudes):
`base = Math.min(maxMs, baseMs * 2 ** (attempt - 1))`, returned as-is without
jitter, otherwise `Math.floor(base * (0.5 + r * 0.5))` where `r` stands for
the `Math.random()` draw, `0 ≤ r < 1`. -/
def computeBackoffMs (rp : RetryPolicy) (attempt : Nat) (r : ℚ) : ℚ :=
  let base : ℚ := min (rp.maxMs : ℚ) ((rp.baseMs : ℚ) * 2 ^ (attempt - 1))
  if !rp.jitter then base
  else (⌊base * (1/2 + r * (1/2))⌋ : ℚ)

/-- Legacy `HttpSink.backoffDelay` (httpSink.ts lines 113-119):
`exp = Math.min(baseMs * 2 ** (attempt - 1), maxMs)`, and with jitter
`Math.floor(exp * rand)` where `rand = Math.random() + 0.5` ranges over
`[0.5, 1.5)`. -/
def backoffDelay (rp : RetryPolicy) (attempt : Nat) (r : ℚ) : ℚ :=
  let e : ℚ := min ((rp.baseMs : ℚ) * 2 ^ (attempt - 1)) (rp.maxMs : ℚ)
  if !rp.jitter then e
  else (⌊e * (r + 1/2)⌋ : ℚ)

/-!
## The legacy `HttpSink` (httpSink.ts)

A single FIFO queue of `{sessionId, e}` entries, a boolean `inflight` guard,
and no closed flag.  Only the behaviour the claims touch is embedded: the
queue discipline of `write`, and the synchronous prefix of `flush` up to its
first awaited fetch. -/
structure LegacyState where
  queue : List (String × Nat)
  inflight : Bool
  pendingBatch : Option (List (String × Nat))
deriving DecidableEq, Repr

/-- What a call to the legacy `flush()` hands its caller: the early-return
paths (`if (this.inflight) return; if (this.queue.length === 0) return;`)
produce a fresh promise that settles immediately, before any in-flight batch
completes; otherwise the call starts the drain and its promise settles only
when that cycle finishes. -/
inductive LegacyFlushRet
  | resolvesImmediately
  | startedCycle
deriving DecidableEq, Repr

/-- Legacy `HttpSink.write` (lines 53-65) without its fire-and-forget
`void this.flush()` trigger, which is a separate interleaving event: push,
then `splice(0, dropped)` from the front when over `maxBuffer`. -/
def legacyWrite (maxBuffer : Nat) (sid : String) (e : Nat)
    (s : LegacyState) : LegacyState :=
  let q := s.queue ++ [(sid, e)]
  let q2 := if maxBuffer < q.length then q.drop (q.length - maxBuffer) else q
  { s with queue := q2 }

/-- Legacy `HttpSink.flush` (lines 67-106), synchronous prefix up to the
first awaited fetch: both early returns leave the state untouched and settle
the caller at once; otherwise one batch is spliced off and its send is now in
flight. -/
def legacyFlushCall (batchSize : Nat) (s : LegacyState) :
    LegacyState × LegacyFlushRet :=
  if s.inflight then (s, .resolvesImmediately)
  else if s.queue.length = 0 then (s, .resolvesImmediately)
  else ({ queue := s.queue.drop batchSize, inflight := true,
          pendingBatch := some (s.queue.take batchSize) }, .startedCycle)

/-- Legacy `HttpSink.close` (lines 108-111): clear the timer and await one
`flush()`.  There is no closed flag, so nothing else changes and later
writes still enqueue. -/
def legacyClose (batchSize : Nat) (s : LegacyState) :
    LegacyState × LegacyFlushRet :=
  legacyFlushCall batchSize s

/-!
## Constructor clamping (claim C10)

The effective settings computed by the `FileSink` (fileSink.ts lines 77-87),
legacy `HttpSink` (httpSink.ts lines 36-51) and legacy `BrowserSink`
(part_002 lines 86-110) constructors.  Options are JS numbers supplied by the
caller; `Int` captures every value the claimed bounds are about. -/
def fileSinkBatchSize (o : Option Int) : Int := max 1 (o.getD 100)

def fileSinkFlushIntervalMs (o : Option Int) : Int := max 50 (o.getD 1000)

def fileSinkMaxBuffer (ob om : Option Int) : Int :=
  max (fileSinkBatchSize ob) (om.getD 5000)

def httpSinkBatchSize (o : Option Int) : Int := max 1 (o.getD 20)

def httpSinkFlushIntervalMs (o : Option Int) : Int := max 50 (o.getD 1000)

def httpSinkMaxBuffer (ob om : Option Int) : Int :=
  max (httpSinkBatchSize ob) (om.getD 5000)

def browserSinkBatchSize (o : Option Int) : Int := max 1 (o.getD 20)

def browserSinkFlushIntervalMs (o : Option Int) : Int := max 50 (o.getD 1000)

def browserSinkMaxBuffer (ob om : Option Int) : Int :=
  max (browserSinkBatchSize ob) (om.getD 2000)

theorem totalCount_nil : totalCount [] = 0 := rfl

theorem totalCount_cons (k : String) (q : List Entry) (rest : Buffers) :
    totalCount ((k, q) :: rest) = q.length + totalCount rest := by
  simp [totalCount]

theorem allEmpty_cons (k : String) (q : List Entry) (rest : Buffers) :
    allEmpty ((k, q) :: rest) = (q.isEmpty && allEmpty rest) := by
  simp [allEmpty]

theorem queueOf_cons (k' : String) (q : List Entry) (rest : Buffers)
    (k : String) :
    queueOf ((k', q) :: rest) k = if k' == k then q else queueOf rest k := by
  cases h : (k' == k) with
  | true => simp [queueOf, List.find?_cons, h]
  | false => simp [queueOf, List.find?_cons, h]

theorem allEmpty_iff_totalCount (bs : Buffers) :
    allEmpty bs = true ↔ totalCount bs = 0 := by
  induction bs with
  | nil => simp [allEmpty, totalCount]
  | cons p rest ih =>
    obtain ⟨k', q⟩ := p
    rw [allEmpty_cons, totalCount_cons, Bool.and_eq_true, List.isEmpty_iff,
      ih, ← List.length_eq_zero]
    omega

theorem queueOf_nil (k : String) : queueOf [] k = [] := rfl

theorem queueOf_allEmpty {bs : Buffers} (h : allEmpty bs = true) (k : String) :
    queueOf bs k = [] := by
  induction bs with
  | nil => rfl
  | cons p rest ih =>
    obtain ⟨k', q⟩ := p
    rw [allEmpty_cons, Bool.and_eq_true, List.isEmpty_iff] at h
    rw [queueOf_cons]
    split
    · exact h.1
    · exact ih h.2

theorem drainPass_nil (n : Nat) : drainPass n [] = ([], []) := rfl

theorem drainPass_cons (n : Nat) (k' : String) (q : List Entry)
    (rest : Buffers) :
    drainPass n ((k', q) :: rest) =
      (if (q.take n).isEmpty then (drainPass n rest).1
        else q.take n :: (drainPass n rest).1,
       (k', q.drop n) :: (drainPass n rest).2) := rfl

theorem drainPass_snd_queueOf (n : Nat) (bs : Buffers) (k : String) :
    queueOf (drainPass n bs).2 k = (queueOf bs k).drop n := by
  induction bs with
  | nil => simp [drainPass, queueOf]
  | cons p rest ih =>
    obtain ⟨k', q⟩ := p
    rw [drainPass_cons]
    show queueOf ((k', q.drop n) :: (drainPass n rest).2) k = _
    rw [queueOf_cons, queueOf_cons]
    split
    · rfl
    · exact ih

theorem drainPass_snd_keys (n : Nat) (bs : Buffers) :
    (drainPass n bs).2.map Prod.fst = bs.map Prod.fst := by
  induction bs with
  | nil => rfl
  | cons p rest ih =>
    obtain ⟨k', q⟩ := p
    simp [drainPass, ih]

theorem restrictKey_nil (k : String) : restrictKey k [] = [] := rfl

theorem restrictKey_append (k : String) (a b : List Batch) :
    restrictKey k (a ++ b) = restrictKey k a ++ restrictKey k b := by
  simp [restrictKey]

theorem restrictKey_cons (k : String) (b : Batch) (rest : List Batch) :
    restrictKey k (b :: rest) =
      b.filter (fun e => e.1 == k) ++ restrictKey k rest := by
  simp [restrictKey]

/-- Batches drained from buffers that do not mention key `k` contain no
records of key `k`. -/
theorem restrictKey_drainPass_notMem (n : Nat) (bs : Buffers) (k : String)
    (hk : k ∉ bs.map Prod.fst) (hwf : ∀ p ∈ bs, ∀ e ∈ p.2, e.1 = p.1) :
    restrictKey k (drainPass n bs).1 = [] := by
  induction bs with
  | nil => rfl
  | cons p rest ih =>
    obtain ⟨k', q⟩ := p
    simp only [List.map_cons, List.mem_cons] at hk
    push_neg at hk
    rw [drainPass_cons]
    show restrictKey k
      (if (q.take n).isEmpty then (drainPass n rest).1
        else q.take n :: (drainPass n rest).1) = []
    have hrest : restrictKey k (drainPass n rest).1 = [] :=
      ih hk.2 (fun p hp => hwf p (List.mem_cons_of_mem _ hp))
    have hq : ∀ e ∈ q.take n, e.1 = k' := fun e he =>
      hwf (k', q) (List.mem_cons_self _ _) e (List.mem_of_mem_take he)
    have hfilter : (q.take n).filter (fun e => e.1 == k) = [] := by
      rw [List.filter_eq_nil_iff]
      intro e he
      simp only [hq e he, beq_iff_eq]
      exact Ne.symm hk.1
    split
    · exact hrest
    · rw [restrictKey_cons, hfilter, List.nil_append]
      exact hrest

theorem restrictKey_drainPass (n : Nat) (bs : Buffers) (k : String)
    (hwf : WfBuf bs) :
    restrictKey k (drainPass n bs).1 = (queueOf bs k).take n := by
  obtain ⟨hnd, hent⟩ := hwf
  induction bs with
  | nil => simp [drainPass, queueOf, restrictKey]
  | cons p rest ih =>
    obtain ⟨k', q⟩ := p
    simp only [List.map_cons, List.nodup_cons] at hnd
    have hq : ∀ e ∈ q.take n, e.1 = k' := fun e he =>
      hent (k', q) (List.mem_cons_self _ _) e (List.mem_of_mem_take he)
    rw [drainPass_cons, queueOf_cons]
    show restrictKey k
      (if (q.take n).isEmpty then (drainPass n rest).1
        else q.take n :: (drainPass n rest).1) = _
    by_cases hkk : k' = k
    · subst hkk
      have hrest : restrictKey k' (drainPass n rest).1 = [] :=
        restrictKey_drainPass_notMem n rest k' hnd.1
          (fun p hp => hent p (List.mem_cons_of_mem _ hp))
      have hfilter : (q.take n).filter (fun e => e.1 == k') = q.take n := by
        rw [List.filter_eq_self]
        intro e he
        simp [hq e he]
      simp only [beq_self_eq_true, if_true]
      split
      · rename_i hemp
        rw [List.isEmpty_iff] at hemp
        rw [hrest, hemp]
      · rw [restrictKey_cons, hfilter, hrest, List.append_nil]
    · have hfilter : (q.take n).filter (fun e => e.1 == k) = [] := by
        rw [List.filter_eq_nil_iff]
        intro e he
        simp only [hq e he, beq_iff_eq]
        exact hkk
      have ihr := ih hnd.2 (fun p hp => hent p (List.mem_cons_of_mem _ hp))
      rw [if_neg (show ¬((k' == k) = true) by simp [hkk])]
      split
      · exact ihr
      · rw [restrictKey_cons, hfilter, List.nil_append]
        exact ihr

theorem drainPass_entries (n : Nat) (bs : Buffers)
    (hent : ∀ p ∈ bs, ∀ e ∈ p.2, e.1 = p.1) :
    ∀ p ∈ (drainPass n bs).2, ∀ e ∈ p.2, e.1 = p.1 := by
  induction bs with
  | nil => simp [drainPass]
  | cons p rest ih =>
    obtain ⟨k', q⟩ := p
    rw [drainPass_cons]
    rintro p hp e he
    rcases List.mem_cons.mp hp with rfl | hp2
    · exact hent (k', q) (List.mem_cons_self _ _) e (List.mem_of_mem_drop he)
    · exact ih (fun p hp => hent p (List.mem_cons_of_mem _ hp)) p hp2 e he

theorem WfBuf_drainPass (n : Nat) (bs : Buffers) (hwf : WfBuf bs) :
    WfBuf (drainPass n bs).2 := by
  refine ⟨?_, drainPass_entries n bs hwf.2⟩
  rw [drainPass_snd_keys]
  exact hwf.1

theorem totalCount_drainPass_le (n : Nat) (bs : Buffers) :
    totalCount (drainPass n bs).2 ≤ totalCount bs := by
  induction bs with
  | nil => simp [drainPass, totalCount]
  | cons p rest ih =>
    obtain ⟨k', q⟩ := p
    rw [drainPass_cons]
    show totalCount ((k', q.drop n) :: (drainPass n rest).2) ≤ _
    rw [totalCount_cons, totalCount_cons, List.length_drop]
    omega

theorem totalCount_drainPass_lt (n : Nat) (bs : Buffers)
    (hne : allEmpty bs = false) (hn : 1 ≤ n) :
    totalCount (drainPass n bs).2 < totalCount bs := by
  induction bs with
  | nil => simp [allEmpty] at hne
  | cons p rest ih =>
    obtain ⟨k', q⟩ := p
    rw [allEmpty_cons, Bool.and_eq_false_iff] at hne
    rw [drainPass_cons]
    show totalCount ((k', q.drop n) :: (drainPass n rest).2) < _
    rw [totalCount_cons, totalCount_cons, List.length_drop]
    rcases hne with hq | hrest
    · have hq1 : 1 ≤ q.length := by
        cases q with
        | nil => simp at hq
        | cons a t => simp
      have h2 := totalCount_drainPass_le n rest
      omega
    · have := ih hrest
      have h3 := List.length_drop n q
      omega

theorem restrictKey_drainLoop (n fuel : Nat) (bs : Buffers) (k : String)
    (hwf : WfBuf bs) :
    restrictKey k (drainLoop n fuel bs).1 ++ queueOf (drainLoop n fuel bs).2 k
      = queueOf bs k := by
  induction fuel generalizing bs with
  | zero => simp [drainLoop, restrictKey]
  | succ fuel ih =>
    rw [drainLoop]
    split
    · simp [restrictKey]
    · have h1 := restrictKey_drainPass n bs k hwf
      have h2 := ih (drainPass n bs).2 (WfBuf_drainPass n bs hwf)
      rw [drainPass_snd_queueOf] at h2
      simp only [restrictKey_append, List.append_assoc, h1, h2]
      exact List.take_append_drop n (queueOf bs k)

theorem WfBuf_drainLoop (n fuel : Nat) (bs : Buffers) (hwf : WfBuf bs) :
    WfBuf (drainLoop n fuel bs).2 := by
  induction fuel generalizing bs with
  | zero => exact hwf
  | succ fuel ih =>
    rw [drainLoop]
    split
    · exact hwf
    · exact ih (drainPass n bs).2 (WfBuf_drainPass n bs hwf)

theorem totalCount_drainLoop_le (n fuel : Nat) (bs : Buffers) :
    totalCount (drainLoop n fuel bs).2 ≤ totalCount bs := by
  induction fuel generalizing bs with
  | zero => exact le_refl _
  | succ fuel ih =>
    rw [drainLoop]
    split
    · exact le_refl _
    · exact le_trans (ih (drainPass n bs).2) (totalCount_drainPass_le n bs)

/-- `totalCount bs` units of fuel always suffice for the drain loop to empty
every queue, provided `batchSize ≥ 1` (which every claim below assumes where
it matters; the source would loop forever on `batchSize = 0`). -/
theorem drainLoop_allEmpty (n fuel : Nat) (bs : Buffers) (hn : 1 ≤ n)
    (hfuel : totalCount bs ≤ fuel) :
    allEmpty (drainLoop n fuel bs).2 = true := by
  induction fuel generalizing bs with
  | zero =>
    have : totalCount bs = 0 := Nat.le_zero.mp hfuel
    exact (allEmpty_iff_totalCount bs).mpr this
  | succ fuel ih =>
    rw [drainLoop]
    split
    · assumption
    · rename_i hne
      rw [Bool.not_eq_true] at hne
      have hlt := totalCount_drainPass_lt n bs hne hn
      exact ih (drainPass n bs).2 (by omega)

theorem WfBuf_drainBatches (n : Nat) (bs : Buffers) (hwf : WfBuf bs) :
    WfBuf (drainBatches n bs).2 := by
  rw [drainBatches]
  split
  · exact hwf
  · exact WfBuf_drainLoop n (totalCount bs) bs hwf

/-- After a full `drainBatches` with `batchSize ≥ 1`, every queue is empty. -/
theorem drainBatches_allEmpty (n : Nat) (bs : Buffers) (hn : 1 ≤ n) :
    allEmpty (drainBatches n bs).2 = true := by
  rw [drainBatches]
  split
  · rename_i h
    exact (allEmpty_iff_totalCount bs).mpr h
  · exact drainLoop_allEmpty n (totalCount bs) bs hn (le_refl _)

/-- The order-preservation core: with `batchSize ≥ 1`, the concatenation of
the drained batches restricted to key `k` is exactly key `k`'s pending queue,
oldest first. -/
theorem restrictKey_drainBatches (n : Nat) (bs : Buffers) (k : String)
    (hwf : WfBuf bs) (hn : 1 ≤ n) :
    restrictKey k (drainBatches n bs).1 = queueOf bs k := by
  have h := restrictKey_drainLoop n (totalCount bs) bs k hwf
  have hempty := drainBatches_allEmpty n bs hn
  rw [drainBatches] at hempty ⊢
  split
  · rename_i h0
    rw [restrictKey_nil]
    exact (queueOf_allEmpty ((allEmpty_iff_totalCount bs).mpr h0) k).symm
  · rename_i h0
    rw [if_neg h0] at hempty
    rw [queueOf_allEmpty hempty k, List.append_nil] at h
    exact h

theorem hasKey_false_queueOf {bs : Buffers} {k : String}
    (h : bs.any (fun p => p.1 == k) = false) : queueOf bs k = [] := by
  induction bs with
  | nil => rfl
  | cons p rest ih =>
    obtain ⟨k', q⟩ := p
    rw [List.any_cons, Bool.or_eq_false_iff] at h
    rw [queueOf_cons, if_neg (by simp [h.1])]
    exact ih h.2

theorem pushRecord_queueOf_self (bs : Buffers) (k : String) (e : Entry)
    (hk : bs.any (fun p => p.1 == k) = true) :
    queueOf (pushRecord bs k e) k = queueOf bs k ++ [e] := by
  induction bs with
  | nil => simp at hk
  | cons p rest ih =>
    obtain ⟨k', q⟩ := p
    rw [List.any_cons] at hk
    cases h : (k' == k) with
    | true => simp [pushRecord, queueOf_cons, h]
    | false =>
      simp only [h, Bool.false_or] at hk
      simp [pushRecord, queueOf_cons, h, ih hk]

theorem pushRecord_queueOf_other (bs : Buffers) (k k2 : String) (e : Entry)
    (hne : (k2 == k) = false) :
    queueOf (pushRecord bs k e) k2 = queueOf bs k2 := by
  induction bs with
  | nil => rfl
  | cons p rest ih =>
    obtain ⟨k', q⟩ := p
    cases h : (k' == k) with
    | true =>
      have : (k' == k2) = false := by
        rw [beq_iff_eq] at h
        subst h
        rw [beq_eq_false_iff_ne] at hne ⊢
        exact fun hkk => hne hkk.symm
      simp [pushRecord, queueOf_cons, h, this]
    | false => simp [pushRecord, queueOf_cons, h, ih]

theorem queueOf_append_single_other (bs : Buffers) (k k2 : String)
    (l : List Entry) (hne : (k == k2) = false) :
    queueOf (bs ++ [(k, l)]) k2 = queueOf bs k2 := by
  induction bs with
  | nil => simp [queueOf, List.find?_cons, hne]
  | cons p rest ih =>
    obtain ⟨k', q⟩ := p
    rw [List.cons_append, queueOf_cons, queueOf_cons, ih]

theorem pushRecord_append_fresh (bs : Buffers) (k : String) (e : Entry)
    (h : bs.any (fun p => p.1 == k) = false) :
    pushRecord (bs ++ [(k, [])]) k e = bs ++ [(k, [e])] := by
  induction bs with
  | nil => simp [pushRecord]
  | cons p rest ih =>
    obtain ⟨k', q⟩ := p
    rw [List.any_cons, Bool.or_eq_false_iff] at h
    simp only [List.cons_append, pushRecord, if_neg (by simp [h.1] :
      ¬((k' == k) = true))]
    exact congrArg (List.cons (k', q)) (ih h.2)

theorem queueOf_writeBuf_self (bs : Buffers) (k : String) (e : Entry) :
    queueOf (writeBuf bs k e) k = queueOf bs k ++ [e] := by
  rw [writeBuf, ensureKey]
  split
  · rename_i h
    exact pushRecord_queueOf_self bs k e h
  · rename_i h
    rw [Bool.not_eq_true] at h
    rw [pushRecord_append_fresh bs k e h, hasKey_false_queueOf h,
      List.nil_append]
    induction bs with
    | nil => simp [queueOf, List.find?_cons]
    | cons p rest ih =>
      obtain ⟨k', q⟩ := p
      rw [List.any_cons, Bool.or_eq_false_iff] at h
      rw [List.cons_append, queueOf_cons, if_neg (by simp [h.1])]
      exact ih h.2

theorem queueOf_writeBuf_other (bs : Buffers) (k k2 : String) (e : Entry)
    (hne : (k2 == k) = false) :
    queueOf (writeBuf bs k e) k2 = queueOf bs k2 := by
  rw [writeBuf, ensureKey]
  split
  · exact pushRecord_queueOf_other bs k k2 e hne
  · rename_i h
    rw [Bool.not_eq_true] at h
    rw [pushRecord_append_fresh bs k e h]
    exact queueOf_append_single_other bs k k2 [e]
      (by rw [beq_eq_false_iff_ne] at hne ⊢; exact fun hkk => hne hkk.symm)

theorem totalCount_append (a b : Buffers) :
    totalCount (a ++ b) = totalCount a + totalCount b := by
  simp [totalCount]

theorem totalCount_pushRecord (bs : Buffers) (k : String) (e : Entry)
    (hk : bs.any (fun p => p.1 == k) = true) :
    totalCount (pushRecord bs k e) = totalCount bs + 1 := by
  induction bs with
  | nil => simp at hk
  | cons p rest ih =>
    obtain ⟨k', q⟩ := p
    rw [List.any_cons] at hk
    cases h : (k' == k) with
    | true =>
      simp only [pushRecord, if_pos h]
      rw [totalCount_cons, totalCount_cons, List.length_append]
      simp
      omega
    | false =>
      simp only [h, Bool.false_or] at hk
      simp only [pushRecord, if_neg (by simp [h] : ¬((k' == k) = true))]
      rw [totalCount_cons, totalCount_cons, ih hk]
      omega

theorem totalCount_writeBuf (bs : Buffers) (k : String) (e : Entry) :
    totalCount (writeBuf bs k e) = totalCount bs + 1 := by
  rw [writeBuf, ensureKey]
  split
  · rename_i h
    exact totalCount_pushRecord bs k e h
  · rename_i h
    rw [Bool.not_eq_true] at h
    rw [pushRecord_append_fresh bs k e h, totalCount_append, totalCount_cons]
    simp [totalCount]

theorem keys_pushRecord (bs : Buffers) (k : String) (e : Entry) :
    (pushRecord bs k e).map Prod.fst = bs.map Prod.fst := by
  induction bs with
  | nil => rfl
  | cons p rest ih =>
    obtain ⟨k', q⟩ := p
    cases h : (k' == k) with
    | true => simp [pushRecord, h]
    | false => simp [pushRecord, h, ih]

theorem entries_pushRecord (bs : Buffers) (k : String) (e : Entry)
    (hent : ∀ p ∈ bs, ∀ x ∈ p.2, x.1 = p.1) (he : e.1 = k) :
    ∀ p ∈ pushRecord bs k e, ∀ x ∈ p.2, x.1 = p.1 := by
  induction bs with
  | nil => simp [pushRecord]
  | cons p rest ih =>
    obtain ⟨k', q⟩ := p
    cases h : (k' == k) with
    | true =>
      simp only [pushRecord, if_pos h]
      rintro p hp x hx
      rcases List.mem_cons.mp hp with rfl | hp2
      · rcases List.mem_append.mp hx with hx1 | hx2
        · exact hent (k', q) (List.mem_cons_self _ _) x hx1
        · rw [List.mem_singleton.mp hx2, he]
          exact (beq_iff_eq.mp h).symm
      · exact hent p (List.mem_cons_of_mem _ hp2) x hx
    | false =>
      simp only [pushRecord, if_neg (by simp [h] : ¬((k' == k) = true))]
      rintro p hp x hx
      rcases List.mem_cons.mp hp with rfl | hp2
      · exact hent _ (List.mem_cons_self _ _) x hx
      · exact ih (fun p hp => hent p (List.mem_cons_of_mem _ hp)) p hp2 x hx

theorem WfBuf_writeBuf (bs : Buffers) (k : String) (e : Entry)
    (hwf : WfBuf bs) (he : e.1 = k) : WfBuf (writeBuf bs k e) := by
  obtain ⟨hnd, hent⟩ := hwf
  rw [writeBuf, ensureKey]
  split
  · exact ⟨by rw [keys_pushRecord]; exact hnd, entries_pushRecord bs k e hent he⟩
  · rename_i h
    rw [Bool.not_eq_true] at h
    rw [pushRecord_append_fresh bs k e h]
    constructor
    · rw [List.map_append]
      simp only [List.map_cons, List.map_nil]
      rw [List.nodup_append]
      refine ⟨hnd, List.nodup_singleton k, ?_⟩
      intro a ha hb
      rw [List.mem_singleton] at hb
      subst hb
      rw [List.mem_map] at ha
      obtain ⟨p, hp, hpk⟩ := ha
      have := List.any_eq_false.mp h p hp
      simp only [beq_iff_eq] at this
      exact this hpk
    · rintro p hp x hx
      rcases List.mem_append.mp hp with hp1 | hp2
      · exact hent p hp1 x hx
      · rw [List.mem_singleton.mp hp2] at hx ⊢
        rw [List.mem_singleton.mp hx]
        exact he

theorem keys_dropOldestFn (bs : Buffers) :
    (dropOldestFn bs).map Prod.fst = bs.map Prod.fst := by
  induction bs with
  | nil => rfl
  | cons p rest ih =>
    obtain ⟨k', q⟩ := p
    cases q with
    | nil => simp [dropOldestFn, ih]
    | cons a t => simp [dropOldestFn]

theorem WfBuf_dropOldestFn (bs : Buffers) (hwf : WfBuf bs) :
    WfBuf (dropOldestFn bs) := by
  obtain ⟨hnd, hent⟩ := hwf
  refine ⟨by rw [keys_dropOldestFn]; exact hnd, ?_⟩
  clear hnd
  induction bs with
  | nil => simp [dropOldestFn]
  | cons p rest ih =>
    obtain ⟨k', q⟩ := p
    cases q with
    | nil =>
      simp only [dropOldestFn]
      rintro p hp x hx
      rcases List.mem_cons.mp hp with rfl | hp2
      · simp at hx
      · exact ih (fun p hp => hent p (List.mem_cons_of_mem _ hp)) p hp2 x hx
    | cons a t =>
      simp only [dropOldestFn]
      rintro p hp x hx
      rcases List.mem_cons.mp hp with rfl | hp2
      · exact hent (k', a :: t) (List.mem_cons_self _ _) x
          (List.mem_cons_of_mem _ hx)
      · exact hent p (List.mem_cons_of_mem _ hp2) x hx

theorem totalCount_dropOldestFn (bs : Buffers) (hne : allEmpty bs = false) :
    totalCount (dropOldestFn bs) = totalCount bs - 1 := by
  induction bs with
  | nil => simp [allEmpty] at hne
  | cons p rest ih =>
    obtain ⟨k', q⟩ := p
    rw [allEmpty_cons, Bool.and_eq_false_iff] at hne
    cases q with
    | nil =>
      simp only [dropOldestFn]
      rw [totalCount_cons, totalCount_cons]
      rcases hne with hq | hrest
      · simp at hq
      · rw [ih hrest]
        have : 1 ≤ totalCount rest := by
          rcases Nat.eq_zero_or_pos (totalCount rest) with h0 | h1
          · rw [← allEmpty_iff_totalCount] at h0
            rw [h0] at hrest
            cases hrest
          · exact h1
        simp only [List.length_nil]
        omega
    | cons a t =>
      simp only [dropOldestFn]
      rw [totalCount_cons, totalCount_cons]
      simp

/-- `dropOldest` removes exactly the head of the first key, in map insertion
order, whose queue is non-empty. -/
theorem dropOldestFn_characterization (bs : Buffers)
    (hne : allEmpty bs = false) :
    ∃ pre k e t rest, bs = pre ++ (k, e :: t) :: rest ∧
      (∀ p ∈ pre, p.2 = []) ∧
      dropOldestFn bs = pre ++ (k, t) :: rest := by
  induction bs with
  | nil => simp [allEmpty] at hne
  | cons p rest ih =>
    obtain ⟨k', q⟩ := p
    cases q with
    | nil =>
      rw [allEmpty_cons, Bool.and_eq_false_iff] at hne
      rcases hne with hq | hrest
      · simp at hq
      · obtain ⟨pre, k, e, t, r, hbs, hpre, hdrop⟩ := ih hrest
        refine ⟨(k', []) :: pre, k, e, t, r, by rw [List.cons_append, hbs], ?_, ?_⟩
        · rintro p hp
          rcases List.mem_cons.mp hp with rfl | hp2
          · rfl
          · exact hpre p hp2
        · simp only [dropOldestFn, List.cons_append]
          rw [hdrop]
    | cons a t =>
      exact ⟨[], k', a, t, rest, rfl, by simp, rfl⟩

theorem drainPass_removed (n : Nat) (bs : Buffers) :
    ((drainPass n bs).1.map List.length).sum + totalCount (drainPass n bs).2
      = totalCount bs := by
  induction bs with
  | nil => simp [drainPass, totalCount]
  | cons p rest ih =>
    obtain ⟨k', q⟩ := p
    rw [drainPass_cons]
    have hlen : (q.take n).length + (q.drop n).length = q.length := by
      rw [List.length_take, List.length_drop]
      omega
    show (((if (q.take n).isEmpty then (drainPass n rest).1
      else q.take n :: (drainPass n rest).1).map List.length).sum)
      + totalCount ((k', q.drop n) :: (drainPass n rest).2) = _
    rw [totalCount_cons, totalCount_cons]
    split
    · rename_i hemp
      rw [List.isEmpty_iff] at hemp
      have : (q.take n).length = 0 := by rw [hemp]; rfl
      omega
    · simp only [List.map_cons, List.sum_cons]
      omega

theorem drainLoop_removed (n fuel : Nat) (bs : Buffers) :
    (((drainLoop n fuel bs).1.map List.length).sum
      + totalCount (drainLoop n fuel bs).2) = totalCount bs := by
  induction fuel generalizing bs with
  | zero => simp [drainLoop]
  | succ fuel ih =>
    rw [drainLoop]
    split
    · simp
    · have h1 := drainPass_removed n bs
      have h2 := ih (drainPass n bs).2
      simp only [List.map_append, List.sum_append]
      omega

theorem drainBatches_removed (n : Nat) (bs : Buffers) :
    ((drainBatches n bs).1.map List.length).sum
      + totalCount (drainBatches n bs).2 = totalCount bs := by
  rw [drainBatches]
  split
  · simp
  · exact drainLoop_removed n (totalCount bs) bs

/-- Split form of the order-preservation lemma that holds without any
assumption on `batchSize`: drained batches plus the residual queue of `k`
reassemble `k`'s original queue. -/
theorem drainBatches_restrict_split (n : Nat) (bs : Buffers) (k : String)
    (hwf : WfBuf bs) :
    restrictKey k (drainBatches n bs).1 ++ queueOf (drainBatches n bs).2 k
      = queueOf bs k := by
  rw [drainBatches]
  split
  · simp [restrictKey]
  · exact restrictKey_drainLoop n (totalCount bs) bs k hwf

theorem queueOf_append_single_self (bs : Buffers) (k : String)
    (l : List Entry) (h : bs.any (fun p => p.1 == k) = false) :
    queueOf (bs ++ [(k, l)]) k = l := by
  induction bs with
  | nil => simp [queueOf, List.find?_cons]
  | cons p rest ih =>
    obtain ⟨k', q⟩ := p
    rw [List.any_cons, Bool.or_eq_false_iff] at h
    rw [List.cons_append, queueOf_cons, if_neg (by simp [h.1])]
    exact ih h.2

theorem queueOf_ensureKey (bs : Buffers) (k k2 : String) :
    queueOf (ensureKey bs k) k2 = queueOf bs k2 := by
  rw [ensureKey]
  split
  · rfl
  · rename_i h
    rw [Bool.not_eq_true] at h
    by_cases hk : (k == k2) = true
    · rw [beq_iff_eq] at hk
      subst hk
      rw [hasKey_false_queueOf h, queueOf_append_single_self bs k [] h]
    · rw [Bool.not_eq_true] at hk
      exact queueOf_append_single_other bs k k2 [] hk

theorem drainBatchesF_eq {total n : Nat} {bs : Buffers}
    (h : total = totalCount bs) : drainBatchesF total n bs = drainBatches n bs := by
  rw [drainBatchesF, drainBatches, h]

theorem totalCount_ensureKey (bs : Buffers) (k : String) :
    totalCount (ensureKey bs k) = totalCount bs := by
  rw [ensureKey]
  split
  · rfl
  · rw [totalCount_append]
    simp [totalCount]

theorem WfBuf_ensureKey (bs : Buffers) (k : String) (hwf : WfBuf bs) :
    WfBuf (ensureKey bs k) := by
  obtain ⟨hnd, hent⟩ := hwf
  rw [ensureKey]
  split
  · exact ⟨hnd, hent⟩
  · rename_i h
    rw [Bool.not_eq_true] at h
    constructor
    · rw [List.map_append]
      simp only [List.map_cons, List.map_nil]
      rw [List.nodup_append]
      refine ⟨hnd, List.nodup_singleton k, ?_⟩
      intro a ha hb
      rw [List.mem_singleton] at hb
      subst hb
      rw [List.mem_map] at ha
      obtain ⟨p, hp, hpk⟩ := ha
      have := List.any_eq_false.mp h p hp
      simp only [beq_iff_eq] at this
      exact this hpk
    · rintro p hp x hx
      rcases List.mem_append.mp hp with hp1 | hp2
      · exact hent p hp1 x hx
      · rw [List.mem_singleton.mp hp2] at hx
        simp at hx

theorem drainPass_batches_ne_nil (n : Nat) (bs : Buffers) :
    ∀ b ∈ (drainPass n bs).1, b ≠ [] := by
  induction bs with
  | nil => simp [drainPass]
  | cons p rest ih =>
    obtain ⟨k', q⟩ := p
    rw [drainPass_cons]
    intro b hb
    rcases instDecidableEqBool (q.take n).isEmpty true with hemp | hemp
    · rw [if_neg hemp] at hb
      rcases List.mem_cons.mp hb with rfl | hb2
      · exact fun hcon => hemp (List.isEmpty_iff.mpr hcon)
      · exact ih b hb2
    · rw [if_pos hemp] at hb
      exact ih b hb

theorem drainLoop_batches_ne_nil (n fuel : Nat) (bs : Buffers) :
    ∀ b ∈ (drainLoop n fuel bs).1, b ≠ [] := by
  induction fuel generalizing bs with
  | zero => simp [drainLoop]
  | succ fuel ih =>
    rw [drainLoop]
    split
    · simp
    · intro b hb
      rcases List.mem_append.mp hb with h1 | h2
      · exact drainPass_batches_ne_nil n bs b h1
      · exact ih (drainPass n bs).2 b h2

theorem drainBatches_batches_ne_nil (n : Nat) (bs : Buffers) :
    ∀ b ∈ (drainBatches n bs).1, b ≠ [] := by
  rw [drainBatches]
  split
  · simp
  · exact drainLoop_batches_ne_nil n (totalCount bs) bs

theorem Wf_initState : Wf initState := by
  refine ⟨⟨List.nodup_nil, ?_⟩, rfl, ?_, ?_, ?_⟩ <;> simp [initState]

theorem Wf_flushCall (c : SinkConfig) (s : SinkState) (hwf : Wf s) :
    Wf (flushCall c s).1 := by
  obtain ⟨hbuf, htot, hcyc, hpid, hres⟩ := hwf
  have hd : drainBatchesF s.totalBuffered c.batchSize s.buffers
      = drainBatches c.batchSize s.buffers := drainBatchesF_eq htot
  have hrem := drainBatches_removed c.batchSize s.buffers
  simp only [flushCall, hd]
  split
  · exact ⟨hbuf, htot, hcyc, hpid, hres⟩
  · split
    · exact ⟨hbuf, htot, hcyc, hpid, hres⟩
    · rename_i hnone
      split
      · simp only [Wf]
        refine ⟨WfBuf_drainBatches _ _ hbuf, by omega, ?_, ?_, ?_⟩
        · intro cyc hc
          exact Option.noConfusion hc
        · intro pid hp
          rw [Option.some_inj] at hp
          omega
        · intro pid hp
          rcases List.mem_append.mp hp with h1 | h2
          · exact Nat.lt_succ_of_lt (hres pid h1)
          · rw [List.mem_singleton.mp h2]
            exact Nat.lt_succ_self _
      · rename_i hne
        simp only [Wf]
        refine ⟨WfBuf_drainBatches _ _ hbuf, by omega, ?_, ?_, ?_⟩
        · intro cyc hc
          rw [Option.some_inj] at hc
          subst hc
          refine ⟨rfl, ?_, ?_, ?_⟩
          · intro hmem
            exact absurd (hres _ hmem) (lt_irrefl _)
          · exact fun hcon => hne (List.isEmpty_iff.mpr hcon)
          · intro hmem
            exact drainBatches_batches_ne_nil c.batchSize s.buffers [] hmem rfl
        · intro pid hp
          rw [Option.some_inj] at hp
          omega
        · intro pid hp
          exact Nat.lt_succ_of_lt (hres pid hp)

theorem Wf_pushState (k : String) (s : SinkState) (hwf : Wf s) :
    Wf (pushState k s) := by
  obtain ⟨hbuf, htot, hcyc, hpid, hres⟩ := hwf
  refine ⟨?_, ?_, hcyc, hpid, hres⟩
  · exact WfBuf_writeBuf s.buffers k (k, s.nextSeq) hbuf rfl
  · show s.totalBuffered + 1 = totalCount (writeBuf s.buffers k (k, s.nextSeq))
    rw [totalCount_writeBuf, htot]

theorem Wf_dropOldestStep (s : SinkState) (hwf : Wf s) :
    Wf (dropOldestStep s) := by
  obtain ⟨hbuf, htot, hcyc, hpid, hres⟩ := hwf
  rw [dropOldestStep]
  split
  · exact ⟨hbuf, htot, hcyc, hpid, hres⟩
  · rename_i hne
    rw [Bool.not_eq_true] at hne
    refine ⟨WfBuf_dropOldestFn s.buffers hbuf, ?_, hcyc, hpid, hres⟩
    show s.totalBuffered - 1 = totalCount (dropOldestFn s.buffers)
    rw [totalCount_dropOldestFn s.buffers hne, htot]

theorem Wf_writeCall (c : SinkConfig) (k : String) (s : SinkState)
    (hwf : Wf s) : Wf (writeCall c k s).1 := by
  have hwf1 := Wf_pushState k s hwf
  obtain ⟨hbuf, htot, hcyc, hpid, hres⟩ := hwf
  rw [writeCall]
  split
  · exact ⟨hbuf, htot, hcyc, hpid, hres⟩
  · split
    · refine ⟨WfBuf_ensureKey s.buffers k hbuf, ?_, hcyc, hpid, hres⟩
      show s.totalBuffered = totalCount (ensureKey s.buffers k)
      rw [totalCount_ensureKey]
      exact htot
    · simp only
      split
      · split
        · exact Wf_flushCall c (pushState k s) hwf1
        · exact Wf_dropOldestStep (pushState k s) hwf1
        · exact hwf1
      · exact hwf1

theorem Wf_deliverStep (c : SinkConfig) (s : SinkState) (hwf : Wf s) :
    Wf (deliverStep c s) := by
  obtain ⟨hbuf, htot, hcyc, hpid, hres⟩ := hwf
  rw [deliverStep]
  split
  · exact ⟨hbuf, htot, hcyc, hpid, hres⟩
  · rename_i cyc hc
    split
    · exact ⟨hbuf, htot, hcyc, hpid, hres⟩
    · rename_i b rest hpend
      obtain ⟨hff, hnr, hpne, hbne⟩ := hcyc cyc hc
      have hpidlt : cyc.pid < s.nextPid := hpid cyc.pid hff
      simp only
      split
      · rename_i hrest
        rw [List.isEmpty_iff] at hrest
        subst hrest
        split
        · -- pass requested: re-drain
          have hd : drainBatchesF s.totalBuffered c.batchSize s.buffers
              = drainBatches c.batchSize s.buffers := drainBatchesF_eq htot
          have hrem := drainBatches_removed c.batchSize s.buffers
          simp only [hd]
          split
          · simp only [Wf]
            refine ⟨WfBuf_drainBatches _ _ hbuf, by omega, ?_, ?_, ?_⟩
            · intro cyc2 hc2
              exact Option.noConfusion hc2
            · intro pid hp
              exact Option.noConfusion hp
            · intro pid hp
              rcases List.mem_append.mp hp with h1 | h2
              · exact hres pid h1
              · rw [List.mem_singleton.mp h2]
                exact hpidlt
          · rename_i hne
            simp only [Wf]
            refine ⟨WfBuf_drainBatches _ _ hbuf, by omega, ?_, ?_, ?_⟩
            · intro cyc2 hc2
              rw [Option.some_inj] at hc2
              subst hc2
              refine ⟨hff, hnr, ?_, ?_⟩
              · exact fun hcon => hne (List.isEmpty_iff.mpr hcon)
              · intro hmem
                exact drainBatches_batches_ne_nil c.batchSize s.buffers []
                  hmem rfl
            · exact hpid
            · exact hres
        · -- cycle completes: resolve its promise
          simp only [Wf]
          refine ⟨hbuf, htot, ?_, ?_, ?_⟩
          · intro cyc2 hc2
            exact Option.noConfusion hc2
          · intro pid hp
            exact Option.noConfusion hp
          · intro pid hp
            rcases List.mem_append.mp hp with h1 | h2
            · exact hres pid h1
            · rw [List.mem_singleton.mp h2]
              exact hpidlt
      · rename_i hrest
        simp only [Wf]
        refine ⟨hbuf, htot, ?_, hpid, hres⟩
        intro cyc2 hc2
        rw [Option.some_inj] at hc2
        subst hc2
        refine ⟨hff, hnr, ?_, ?_⟩
        · exact fun hcon => hrest (List.isEmpty_iff.mpr hcon)
        · rw [hpend] at hbne
          intro hmem
          exact hbne (List.mem_cons_of_mem _ hmem)

theorem Wf_closeCall (c : SinkConfig) (s : SinkState) (hwf : Wf s) :
    Wf (closeCall c s).1 := by
  rw [closeCall]
  split
  · exact hwf
  · obtain ⟨hbuf, htot, hcyc, hpid, hres⟩ := hwf
    exact Wf_flushCall c _ ⟨hbuf, htot, hcyc, hpid, hres⟩

theorem Wf_step (c : SinkConfig) (s : SinkState) (a : Action) (hwf : Wf s) :
    Wf (step c s a).1 := by
  cases a with
  | write k => exact Wf_writeCall c k s hwf
  | flush => exact Wf_flushCall c s hwf
  | deliver => exact Wf_deliverStep c s hwf
  | close => exact Wf_closeCall c s hwf

theorem Wf_foldl (c : SinkConfig) (acts : List Action) (s : SinkState)
    (hwf : Wf s) : Wf (acts.foldl (fun s a => (step c s a).1) s) := by
  induction acts generalizing s with
  | nil => exact hwf
  | cons a rest ih => exact ih (step c s a).1 (Wf_step c s a hwf)

/-- Every state reachable from a fresh sink instance satisfies `Wf`. -/
theorem Wf_run (c : SinkConfig) (acts : List Action) : Wf (run c acts) :=
  Wf_foldl c acts initState Wf_initState

theorem restrictKey_singleton (k : String) (b : Batch) :
    restrictKey k [b] = b.filter (fun e => e.1 == k) := by
  simp [restrictKey]

theorem KeyTrace_flushCall (c : SinkConfig) (k : String) (s : SinkState)
    (hwf : Wf s) (ht : KeyTrace k s) : KeyTrace k (flushCall c s).1 := by
  obtain ⟨hbuf, htot, hcyc, hpid, hres⟩ := hwf
  have hd : drainBatchesF s.totalBuffered c.batchSize s.buffers
      = drainBatches c.batchSize s.buffers := drainBatchesF_eq htot
  have hsplit := drainBatches_restrict_split c.batchSize s.buffers k hbuf
  rw [flushCall]
  split
  · exact ht
  · split
    · exact ht
    · rename_i hnone
      have hcnone : s.cycle = none := by
        cases hc : s.cycle with
        | none => rfl
        | some cyc =>
          have := (hcyc cyc hc).1
          rw [hnone] at this
          exact Option.noConfusion this
      rw [KeyTrace, pendingBatches] at ht
      rw [hcnone] at ht
      simp only [restrictKey_nil, List.nil_append] at ht
      simp only [hd]
      split
      · rename_i hemp
        rw [List.isEmpty_iff] at hemp
        rw [KeyTrace, pendingBatches]
        simp only [restrictKey_nil, List.nil_append]
        rw [hemp] at hsplit
        rw [restrictKey_nil, List.nil_append] at hsplit
        rw [hsplit]
        exact ht
      · rw [KeyTrace, pendingBatches]
        simp only
        rw [List.append_assoc] at *
        rw [hsplit]
        exact ht

theorem KeyTrace_pushState (k k0 : String) (s : SinkState)
    (ht : KeyTrace k s) : KeyTrace k (pushState k0 s) := by
  rw [KeyTrace, pendingBatches] at ht
  rw [KeyTrace, pendingBatches]
  simp only [pushState]
  show restrictKey k s.delivered ++ _
      ++ queueOf (writeBuf s.buffers k0 (k0, s.nextSeq)) k
    = (s.accepted ++ [(k0, s.nextSeq)]).filter (fun e => e.1 == k)
  rw [List.filter_append]
  by_cases hk : (k0 == k) = true
  · rw [beq_iff_eq] at hk
    subst hk
    rw [queueOf_writeBuf_self]
    have he : ([((k0 : String), s.nextSeq)].filter (fun e => e.1 == k0))
        = [(k0, s.nextSeq)] := by simp
    rw [he, ← List.append_assoc, ht]
  · rw [Bool.not_eq_true] at hk
    rw [queueOf_writeBuf_other s.buffers k0 k (k0, s.nextSeq)
      (by rw [beq_eq_false_iff_ne] at hk ⊢; exact fun h => hk h.symm)]
    have he : ([((k0 : String), s.nextSeq)].filter (fun e => e.1 == k)) = [] := by
      simp [List.filter_cons, hk]
    rw [he, List.append_nil]
    exact ht

theorem KeyTrace_writeCall (c : SinkConfig) (k k0 : String) (s : SinkState)
    (hwf : Wf s) (hpol : c.policy ≠ OverflowPolicy.dropOldest)
    (ht : KeyTrace k s) : KeyTrace k (writeCall c k0 s).1 := by
  have hwf1 := Wf_pushState k0 s hwf
  have ht1 := KeyTrace_pushState k k0 s ht
  rw [writeCall]
  split
  · exact ht
  · split
    · rw [KeyTrace, pendingBatches] at ht ⊢
      show restrictKey k s.delivered ++ _ ++ queueOf (ensureKey s.buffers k0) k
        = s.accepted.filter (fun e => e.1 == k)
      rw [queueOf_ensureKey]
      exact ht
    · simp only
      split
      · split
        · exact KeyTrace_flushCall c k (pushState k0 s) hwf1 ht1
        · rename_i hp
          exact absurd hp hpol
        · exact ht1
      · exact ht1

theorem KeyTrace_deliverStep (c : SinkConfig) (k : String) (s : SinkState)
    (hwf : Wf s) (ht : KeyTrace k s) : KeyTrace k (deliverStep c s) := by
  obtain ⟨hbuf, htot, hcyc, hpid, hres⟩ := hwf
  rw [deliverStep]
  split
  · exact ht
  · rename_i cyc hc
    split
    · exact ht
    · rename_i b rest hpend
      rw [KeyTrace, pendingBatches] at ht
      simp only [hc] at ht
      rw [hpend] at ht
      simp only
      have hdel : restrictKey k (s.delivered ++ [b])
          = restrictKey k s.delivered ++ b.filter (fun e => e.1 == k) := by
        rw [restrictKey_append, restrictKey_singleton]
      split
      · rename_i hrest
        rw [List.isEmpty_iff] at hrest
        subst hrest
        split
        · -- requested: re-drain after the last send
          have hd : drainBatchesF s.totalBuffered c.batchSize s.buffers
              = drainBatches c.batchSize s.buffers := drainBatchesF_eq htot
          have hsplit := drainBatches_restrict_split c.batchSize s.buffers k
            hbuf
          simp only [hd]
          split
          · rename_i hemp
            rw [List.isEmpty_iff] at hemp
            rw [hemp, restrictKey_nil, List.nil_append] at hsplit
            rw [KeyTrace, pendingBatches]
            simp only [restrictKey_nil, List.nil_append]
            rw [hdel, hsplit]
            rw [restrictKey_cons, restrictKey_nil, List.append_nil] at ht
            rw [List.append_assoc]
            exact ht
          · rw [KeyTrace, pendingBatches]
            simp only
            rw [hdel]
            rw [restrictKey_cons, restrictKey_nil, List.append_nil] at ht
            rw [List.append_assoc, List.append_assoc, hsplit,
              ← List.append_assoc]
            exact ht
        · -- cycle completes
          rw [KeyTrace, pendingBatches]
          simp only [restrictKey_nil, List.nil_append]
          rw [hdel]
          rw [restrictKey_cons, restrictKey_nil, List.append_nil] at ht
          rw [List.append_assoc]
          exact ht
      · -- more batches pending in this pass
        rw [KeyTrace, pendingBatches]
        simp only
        rw [hdel]
        rw [restrictKey_cons] at ht
        simp only [List.append_assoc] at ht ⊢
        exact ht

theorem KeyTrace_closeCall (c : SinkConfig) (k : String) (s : SinkState)
    (hwf : Wf s) (ht : KeyTrace k s) : KeyTrace k (closeCall c s).1 := by
  obtain ⟨hbuf, htot, hcyc, hpid, hres⟩ := hwf
  rw [closeCall]
  split
  · exact ht
  · exact KeyTrace_flushCall c k { s with closed := true }
      ⟨hbuf, htot, hcyc, hpid, hres⟩ ht

theorem KeyTrace_step (c : SinkConfig) (k : String) (s : SinkState)
    (a : Action) (hwf : Wf s) (hpol : c.policy ≠ OverflowPolicy.dropOldest)
    (ht : KeyTrace k s) : KeyTrace k (step c s a).1 := by
  cases a with
  | write k0 => exact KeyTrace_writeCall c k k0 s hwf hpol ht
  | flush => exact KeyTrace_flushCall c k s hwf ht
  | deliver => exact KeyTrace_deliverStep c k s hwf ht
  | close => exact KeyTrace_closeCall c k s hwf ht

theorem KeyTrace_initState (k : String) : KeyTrace k initState := by
  simp [KeyTrace, pendingBatches, initState, restrictKey, queueOf]

theorem KeyTrace_run (c : SinkConfig) (k : String) (acts : List Action)
    (hpol : c.policy ≠ OverflowPolicy.dropOldest) :
    KeyTrace k (run c acts) := by
  rw [run]
  have : ∀ s, Wf s → KeyTrace k s →
      KeyTrace k (acts.foldl (fun s a => (step c s a).1) s) := by
    induction acts with
    | nil => exact fun s _ ht => ht
    | cons a rest ih =>
      intro s hwf ht
      exact ih (step c s a).1 (Wf_step c s a hwf)
        (KeyTrace_step c k s a hwf hpol ht)
  exact this initState Wf_initState (KeyTrace_initState k)

theorem respOk_413 : respOk 413 = false := by decide

theorem shouldRetry_413 : shouldRetry (some 413) = false := by decide

theorem sendLoop_ok (rp : RetryPolicy) (now : Int)
    (cb : List String → Except Unit Unit) (lines : List String)
    (allow : Bool) (attempt fuel : Nat) (o : Oracle) (st : Nat)
    (ra : Option RAHeader) (hok : respOk st = true) :
    sendLoop rp now cb lines allow attempt (fuel + 1) (Resp.http st ra :: o)
      = (o, ⟨[lines], [], []⟩, .delivered) := by
  simp [sendLoop, nextResp, hok]

theorem sendLoop_nonretryable (rp : RetryPolicy) (now : Int)
    (cb : List String → Except Unit Unit) (lines : List String)
    (allow : Bool) (attempt fuel : Nat) (o : Oracle) (st : Nat)
    (ra : Option RAHeader) (hok : respOk st = false)
    (hr : shouldRetry (some st) = false) (h413 : st ≠ 413) :
    sendLoop rp now cb lines allow attempt (fuel + 1) (Resp.http st ra :: o)
      = (o, ⟨[lines], [(lines, some st)], []⟩, .dropped) := by
  simp [sendLoop, nextResp, hok, hr, h413, swallow]

theorem sendLoop_413_split (rp : RetryPolicy) (now : Int)
    (cb : List String → Except Unit Unit) (lines : List String)
    (attempt fuel : Nat) (o : Oracle) (ra : Option RAHeader)
    (hlen : 1 < lines.length) :
    sendLoop rp now cb lines true attempt (fuel + 1) (Resp.http 413 ra :: o)
      = (o, ⟨[lines], [], []⟩, .needSplit) := by
  simp [sendLoop, nextResp, respOk_413, hlen]

theorem sendLoop_413_drop (rp : RetryPolicy) (now : Int)
    (cb : List String → Except Unit Unit) (lines : List String)
    (allow : Bool) (attempt fuel : Nat) (o : Oracle) (ra : Option RAHeader)
    (h : ¬(allow = true ∧ 1 < lines.length)) :
    sendLoop rp now cb lines allow attempt (fuel + 1) (Resp.http 413 ra :: o)
      = (o, ⟨[lines], [(lines, some 413)], []⟩, .dropped) := by
  simp [sendLoop, nextResp, respOk_413, h, swallow, shouldRetry_413]

theorem sendLoop_retry_http (rp : RetryPolicy) (now : Int)
    (cb : List String → Except Unit Unit) (lines : List String)
    (allow : Bool) (attempt fuel : Nat) (o : Oracle) (st : Nat)
    (ra : Option RAHeader) (hok : respOk st = false)
    (hr : shouldRetry (some st) = true) (h413 : st ≠ 413)
    (hat : attempt + 1 ≤ rp.retries) :
    sendLoop rp now cb lines allow attempt (fuel + 1) (Resp.http st ra :: o)
      = ((sendLoop rp now cb lines allow (attempt + 1) fuel o).1,
         ⟨lines ::
            (sendLoop rp now cb lines allow (attempt + 1) fuel o).2.1.attempts,
          (sendLoop rp now cb lines allow (attempt + 1) fuel o).2.1.drops,
          (match parseRetryAfterMs ra now with
            | some d => DelayMs.hinted d
            | none => DelayMs.backoff (attempt + 1)) ::
            (sendLoop rp now cb lines allow (attempt + 1) fuel o).2.1.sleeps⟩,
         (sendLoop rp now cb lines allow (attempt + 1) fuel o).2.2) := by
  have hat2 : ¬(rp.retries < attempt + 1) := by omega
  simp [sendLoop, nextResp, hok, hr, h413, hat2]

theorem sendLoop_cb (rp : RetryPolicy) (now : Int)
    (cb1 cb2 : List String → Except Unit Unit) (lines : List String)
    (allow : Bool) :
    ∀ (fuel attempt : Nat) (o : Oracle),
      sendLoop rp now cb1 lines allow attempt fuel o
        = sendLoop rp now cb2 lines allow attempt fuel o := by
  intro fuel
  induction fuel with
  | zero => intro _ _; rfl
  | succ fuel ih =>
    intro attempt o
    rcases o with _ | ⟨r, rest⟩
    · simp only [sendLoop, nextResp]
      split_ifs <;> simp [swallow, ih]
    · rcases r with _ | ⟨st, ra⟩
      · simp only [sendLoop, nextResp]
        split_ifs <;> simp [swallow, ih]
      · simp only [sendLoop, nextResp]
        split_ifs <;> simp [swallow, ih]

theorem sendBatchNoSplit_cb (rp : RetryPolicy) (now : Int)
    (cb1 cb2 : List String → Except Unit Unit) (o : Oracle)
    (lines : List String) :
    sendBatchNoSplit rp now cb1 o lines = sendBatchNoSplit rp now cb2 o lines := by
  rw [sendBatchNoSplit, sendBatchNoSplit, sendLoop_cb rp now cb1 cb2]

theorem sendBatchWithRetry_cb (rp : RetryPolicy) (now : Int)
    (cb1 cb2 : List String → Except Unit Unit) (o : Oracle)
    (lines : List String) (allow : Bool) :
    sendBatchWithRetry rp now cb1 o lines allow
      = sendBatchWithRetry rp now cb2 o lines allow := by
  simp only [sendBatchWithRetry, sendBatchNoSplit,
    sendLoop_cb rp now cb1 cb2]

theorem flushDeliverHttp_cb (rp : RetryPolicy) (now : Int)
    (cb1 cb2 : List String → Except Unit Unit) :
    ∀ (batches : List (List String)) (o : Oracle),
      flushDeliverHttp rp now cb1 o batches
        = flushDeliverHttp rp now cb2 o batches := by
  intro batches
  induction batches with
  | nil => intro o; rfl
  | cons lines rest ih =>
    intro o
    simp only [flushDeliverHttp]
    split
    · exact ih o
    · rw [sendBatchWithRetry_cb rp now cb1 cb2 o lines true, ih]

theorem browserFlushLoop_cb (cb1 cb2 : List String → Except Unit Unit) :
    ∀ (batches : List (List String)) (o : Oracle),
      browserFlushLoop cb1 o batches = browserFlushLoop cb2 o batches := by
  intro batches
  induction batches with
  | nil => intro o; rfl
  | cons lines rest ih =>
    intro o
    simp only [browserFlushLoop]
    split
    · exact ih o
    · simp [swallow, ih]

/-- C10: the `FileSink`, legacy `HttpSink` and legacy `BrowserSink`
constructors clamp the effective settings: `batchSize ≥ 1`,
`flushIntervalMs ≥ 50 ms`, and `maxBuffer ≥ batchSize`, for every supplied
options object — the buffer capacity can never be configured smaller than one
batch. -/
theorem constructor_clamps_settings :
    ∀ (ob oi om : Option Int),
      (1 ≤ fileSinkBatchSize ob ∧ 50 ≤ fileSinkFlushIntervalMs oi ∧
        fileSinkBatchSize ob ≤ fileSinkMaxBuffer ob om) ∧
      (1 ≤ httpSinkBatchSize ob ∧ 50 ≤ httpSinkFlushIntervalMs oi ∧
        httpSinkBatchSize ob ≤ httpSinkMaxBuffer ob om) ∧
      (1 ≤ browserSinkBatchSize ob ∧ 50 ≤ browserSinkFlushIntervalMs oi ∧
        browserSinkBatchSize ob ≤ browserSinkMaxBuffer ob om) := by
  intro ob oi om
  exact ⟨⟨le_max_left _ _, le_max_left _ _, le_max_left _ _⟩,
    ⟨le_max_left _ _, le_max_left _ _, le_max_left _ _⟩,
    ⟨le_max_left _ _, le_max_left _ _, le_max_left _ _⟩⟩

/-- C7 (amended): in the refined `HttpSink`, without jitter the backoff is
exactly `min(maxMs, baseMs * 2^(attempt-1))`; with jitter and a random draw
`r ∈ [0,1)` the delay is `Math.floor` of a value in the half-to-full window,
hence between `⌊base/2⌋` (the floor can land one below an odd base's exact
half) and `base`, and never exceeds `maxMs`. -/
theorem computeBackoffMs_window :
    ∀ (rp : RetryPolicy) (attempt : Nat) (r : ℚ),
      (rp.jitter = false →
        computeBackoffMs rp attempt r
          = min (rp.maxMs : ℚ) ((rp.baseMs : ℚ) * 2 ^ (attempt - 1))) ∧
      (rp.jitter = true → 0 ≤ r → r < 1 →
        ((⌊(min (rp.maxMs : ℚ) ((rp.baseMs : ℚ) * 2 ^ (attempt - 1))) / 2⌋ : ℚ)
            ≤ computeBackoffMs rp attempt r ∧
          computeBackoffMs rp attempt r
            ≤ min (rp.maxMs : ℚ) ((rp.baseMs : ℚ) * 2 ^ (attempt - 1)) ∧
          computeBackoffMs rp attempt r ≤ (rp.maxMs : ℚ))) := by
  intro rp attempt r
  set base : ℚ := min (rp.maxMs : ℚ) ((rp.baseMs : ℚ) * 2 ^ (attempt - 1))
    with hbase
  have hbase0 : 0 ≤ base := by
    rw [hbase]
    refine le_min (by positivity) (by positivity)
  constructor
  · intro hj
    rw [computeBackoffMs, hj]
    rfl
  · intro hj hr0 hr1
    have hval : computeBackoffMs rp attempt r
        = (⌊base * (1/2 + r * (1/2))⌋ : ℚ) := by
      rw [computeBackoffMs, hj]
      rfl
    have hfac0 : (1/2 : ℚ) ≤ 1/2 + r * (1/2) := by linarith
    have hfac1 : 1/2 + r * (1/2) ≤ 1 := by linarith
    refine ⟨?_, ?_, ?_⟩
    · rw [hval]
      have h1 : base / 2 ≤ base * (1/2 + r * (1/2)) := by
        have := mul_le_mul_of_nonneg_left hfac0 hbase0
        calc base / 2 = base * (1/2) := by ring
        _ ≤ base * (1/2 + r * (1/2)) := this
      exact_mod_cast Int.floor_le_floor h1
    · rw [hval]
      have h2 : base * (1/2 + r * (1/2)) ≤ base :=
        le_trans (mul_le_mul_of_nonneg_left hfac1 hbase0) (by rw [mul_one])
      exact le_trans (Int.floor_le _) h2
    · rw [hval]
      have h2 : base * (1/2 + r * (1/2)) ≤ base :=
        le_trans (mul_le_mul_of_nonneg_left hfac1 hbase0) (by rw [mul_one])
      have h3 : base ≤ (rp.maxMs : ℚ) := by rw [hbase]; exact min_le_left _ _
      exact le_trans (Int.floor_le _) (le_trans h2 h3)

/-- C7 witness: the jitter window bounds at `retry = {retries 3, base 300,
max 5000, jitter on}`, attempt 2, draw `r = 1/3`. -/
theorem computeBackoffMs_window_witness :
    (⌊(min ((5000 : ℚ)) ((300 : ℚ) * 2 ^ (2 - 1))) / 2⌋ : ℚ)
        ≤ computeBackoffMs ⟨3, 300, 5000, true⟩ 2 (1/3) ∧
      computeBackoffMs ⟨3, 300, 5000, true⟩ 2 (1/3)
        ≤ min ((5000 : ℚ)) ((300 : ℚ) * 2 ^ (2 - 1)) ∧
      computeBackoffMs ⟨3, 300, 5000, true⟩ 2 (1/3) ≤ (5000 : ℚ) :=
  (computeBackoffMs_window ⟨3, 300, 5000, true⟩ 2 (1/3)).2 rfl
    (by norm_num) (by norm_num)

/-- C7 counterexample: the legacy `HttpSink.backoffDelay` jitter multiplies
by `Math.random() + 0.5 ∈ [0.5, 1.5)`, not the half-to-full window, and at
`r = 9/10` (with `baseMs 250`, `maxMs 4000`, attempt 5) produces 5600 ms,
exceeding `maxMs = 4000` — refuting the half-to-full window and the
never-exceeds-`maxMs` parts of the claim as stated over every sink. -/
theorem backoffDelay_exceeds_maxMs :
    backoffDelay ⟨3, 250, 4000, true⟩ 5 (9/10) = 5600 ∧
    (0 ≤ (9/10 : ℚ) ∧ (9/10 : ℚ) < 1) ∧ (4000 : ℚ) < 5600 := by
  refine ⟨?_, by norm_num, by norm_num⟩
  rw [backoffDelay]
  norm_num

/-- C6 (amended): the `Retry-After` wait hint is the seconds-integer form
times 1000; an HTTP date yields its delta from now, a delta in `[0ms, 1ms)`
clamping to the minimal positive delay of 1 ms; a negative delta (past date)
or an unparseable date yields no hint, so the retry falls back to the
computed exponential backoff — the retry loop sleeps the parsed hint when one
exists and `computeBackoffMs(attempt)` otherwise. -/
theorem retryAfter_delay_policy :
    ∀ (now : Int),
      (∀ n : Nat, parseRetryAfterMs (some (.secs n)) now
        = some ((n : Int) * 1000)) ∧
      (∀ t : Int, 1 ≤ t - now →
        parseRetryAfterMs (some (.httpDate (some t))) now = some (t - now)) ∧
      (∀ t : Int, 0 ≤ t - now → t - now < 1 →
        parseRetryAfterMs (some (.httpDate (some t))) now = some 1) ∧
      (∀ t : Int, t - now < 0 →
        parseRetryAfterMs (some (.httpDate (some t))) now = none) ∧
      parseRetryAfterMs none now = none ∧
      parseRetryAfterMs (some (.httpDate none)) now = none ∧
      (∀ (rp : RetryPolicy) (cb : List String → Except Unit Unit)
          (lines : List String) (allow : Bool) (attempt fuel : Nat)
          (o : Oracle) (st : Nat) (ra : Option RAHeader),
        respOk st = false → shouldRetry (some st) = true → st ≠ 413 →
        attempt + 1 ≤ rp.retries →
        (sendLoop rp now cb lines allow attempt (fuel + 1)
            (Resp.http st ra :: o)).2.1.sleeps
          = (match parseRetryAfterMs ra now with
              | some d => DelayMs.hinted d
              | none => DelayMs.backoff (attempt + 1)) ::
            (sendLoop rp now cb lines allow (attempt + 1) fuel o).2.1.sleeps) := by
  intro now
  refine ⟨?_, ?_, ?_, ?_, rfl, rfl, ?_⟩
  · intro n
    rfl
  · intro t ht
    rw [parseRetryAfterMs]
    simp only [if_pos ht]
  · intro t h0 h1
    rw [parseRetryAfterMs]
    rw [if_neg (by omega), if_pos h0]
  · intro t ht
    rw [parseRetryAfterMs]
    rw [if_neg (by omega), if_neg (by omega)]
  · intro rp cb lines allow attempt fuel o st ra hok hr h413 hat
    rw [sendLoop_retry_http rp now cb lines allow attempt fuel o st ra hok hr
      h413 hat]

/-- C6 witness: a `Retry-After: 7` header on a 500 response parses to 7000 ms
and that hinted delay is the one slept before the retry. -/
theorem retryAfter_delay_policy_witness :
    parseRetryAfterMs (some (.secs 7)) 0 = some 7000 ∧
    (sendLoop ⟨3, 300, 5000, false⟩ 0 (fun _ => Except.ok ()) ["a"] true 0 2
        (Resp.http 500 (some (.secs 7)) :: [Resp.http 200 none])).2.1.sleeps
      = DelayMs.hinted 7000 ::
        (sendLoop ⟨3, 300, 5000, false⟩ 0 (fun _ => Except.ok ()) ["a"] true 1 1
          [Resp.http 200 none]).2.1.sleeps := by
  constructor
  · exact (retryAfter_delay_policy 0).1 7
  · exact (retryAfter_delay_policy 0).2.2.2.2.2.2 ⟨3, 300, 5000, false⟩
      (fun _ => Except.ok ()) ["a"] true 0 1 [Resp.http 200 none] 500
      (some (.secs 7)) (by decide) (by decide) (by decide) (by decide)

/-- C6 counterexample: a past HTTP date (timestamp 0 with `now = 10000`, a
negative delta) does not clamp to a minimal positive delay as claimed — the
parser returns no hint and the retry sleeps the exponential backoff. -/
theorem retryAfter_past_date_counterexample :
    parseRetryAfterMs (some (.httpDate (some 0))) 10000 = none ∧
    (∀ ms : Int, 1 ≤ ms →
      parseRetryAfterMs (some (.httpDate (some 0))) 10000 ≠ some ms) ∧
    (sendBatchWithRetry ⟨3, 300, 5000, false⟩ 10000 (fun _ => Except.ok ())
        [Resp.http 500 (some (.httpDate (some 0))), Resp.http 200 none]
        ["a"] true).2.sleeps = [DelayMs.backoff 1] := by
  refine ⟨by decide, ?_, by decide⟩
  intro ms _
  rw [show parseRetryAfterMs (some (.httpDate (some 0))) 10000 = none
    from by decide]
  exact fun hcon => Option.noConfusion hcon

/-- C4 (amended): the refined `HttpSink` treats an attempt as retryable
exactly on a network error or status 408, 425, 429 or 5xx; every other
non-success status except 413 (payload-too-large, which follows the one-shot
split policy) makes `sendBatchWithRetry` drop the batch and report it
immediately, with no retry: one attempt, one drop report, no sleep. -/
theorem shouldRetry_spec_and_immediate_drop :
    (shouldRetry none = true) ∧
    (∀ st : Nat, shouldRetry (some st) = true ↔
      (st = 408 ∨ st = 425 ∨ st = 429 ∨ (500 ≤ st ∧ st < 600))) ∧
    (∀ (rp : RetryPolicy) (now : Int) (cb : List String → Except Unit Unit)
        (o : Oracle) (lines : List String) (st : Nat) (ra : Option RAHeader)
        (allow : Bool),
      respOk st = false → shouldRetry (some st) = false → st ≠ 413 →
      sendBatchWithRetry rp now cb (Resp.http st ra :: o) lines allow
        = (o, ⟨[lines], [(lines, some st)], []⟩)) := by
  refine ⟨rfl, ?_, ?_⟩
  · intro st
    simp only [shouldRetry]
    split_ifs with h1 h2 h3 h4
    · simp [h1]
    · simp [h2]
    · simp [h3]
    · simp only [true_iff]
      right; right; right
      exact h4
    · simp only [false_iff]
      push_neg
      refine ⟨h1, h2, h3, fun h5 => by omega⟩
  · intro rp now cb o lines st ra allow hok hr h413
    have h2 : rp.retries + 2 = rp.retries + 1 + 1 := rfl
    simp only [sendBatchWithRetry, h2,
      sendLoop_nonretryable rp now cb lines allow 0 (rp.retries + 1) o st ra
        hok hr h413]

/-- C4 witness: a 404 on the first attempt drops the batch at once. -/
theorem shouldRetry_spec_witness :
    sendBatchWithRetry ⟨3, 300, 5000, true⟩ 0 (fun _ => Except.ok ())
        (Resp.http 404 none :: [Resp.http 200 none]) ["a"] true
      = ([Resp.http 200 none], ⟨[["a"]], [(["a"], some 404)], []⟩) :=
  shouldRetry_spec_and_immediate_drop.2.2 ⟨3, 300, 5000, true⟩ 0
    (fun _ => Except.ok ()) [Resp.http 200 none] ["a"] 404 none true
    (by decide) (by decide) (by decide)

/-- C4 counterexample: on status 413 with a two-record batch the code does
not drop and report immediately — it splits and performs two further
delivery attempts with no drop report, contrary to the claim's universal
clause over every other non-success status. -/
theorem status413_not_dropped_immediately :
    respOk 413 = false ∧ shouldRetry (some 413) = false ∧
    sendBatchWithRetry ⟨3, 300, 5000, true⟩ 0 (fun _ => Except.ok ())
        [Resp.http 413 none, Resp.http 200 none, Resp.http 200 none]
        ["a", "b"] true
      = ([], ⟨[["a", "b"], ["a"], ["b"]], [], []⟩) := by
  refine ⟨by decide, by decide, by decide⟩

/-- C5: a payload-too-large (413) response on a batch of more than one record
splits it once at `Math.floor(length / 2)` — the attempt on the full batch is
followed by the two halves delivered independently through the
downshift-disabled sender; a single-record batch cannot be split and is
dropped and reported instead; and the downshift-disabled sender drops (never
splits) on any further 413, whatever the batch size and attempt number. -/
theorem payload_too_large_downshift :
    ∀ (rp : RetryPolicy) (now : Int) (cb : List String → Except Unit Unit)
      (o : Oracle) (lines : List String) (ra : Option RAHeader),
      (1 < lines.length →
        sendBatchWithRetry rp now cb (Resp.http 413 ra :: o) lines true
          = ((sendBatchNoSplit rp now cb
                (sendBatchNoSplit rp now cb o
                  (lines.take (lines.length / 2))).1
                (lines.drop (lines.length / 2))).1,
             SendLog.app
               (SendLog.app ⟨[lines], [], []⟩
                 (sendBatchNoSplit rp now cb o
                   (lines.take (lines.length / 2))).2)
               (sendBatchNoSplit rp now cb
                 (sendBatchNoSplit rp now cb o
                   (lines.take (lines.length / 2))).1
                 (lines.drop (lines.length / 2))).2)) ∧
      (¬ 1 < lines.length →
        sendBatchWithRetry rp now cb (Resp.http 413 ra :: o) lines true
          = (o, ⟨[lines], [(lines, some 413)], []⟩)) ∧
      (∀ (o2 : Oracle) (lines2 : List String) (ra2 : Option RAHeader)
          (att fuel : Nat),
        sendLoop rp now cb lines2 false att (fuel + 1)
            (Resp.http 413 ra2 :: o2)
          = (o2, ⟨[lines2], [(lines2, some 413)], []⟩, .dropped)) := by
  intro rp now cb o lines ra
  have h2 : rp.retries + 2 = rp.retries + 1 + 1 := rfl
  refine ⟨?_, ?_, ?_⟩
  · intro hlen
    simp only [sendBatchWithRetry, h2,
      sendLoop_413_split rp now cb lines 0 (rp.retries + 1) o ra hlen]
  · intro hlen
    simp only [sendBatchWithRetry, h2,
      sendLoop_413_drop rp now cb lines true 0 (rp.retries + 1) o ra
        (by simp [hlen])]
  · intro o2 lines2 ra2 att fuel
    exact sendLoop_413_drop rp now cb lines2 false att fuel o2 ra2
      (by simp)

/-- C5 witness: a three-record batch receiving 413 then two successes splits
into `["a"]` and `["b", "c"]` and delivers all three; a single-record batch
receiving 413 is dropped and reported. -/
theorem payload_too_large_downshift_witness :
    sendBatchWithRetry ⟨3, 300, 5000, true⟩ 0 (fun _ => Except.ok ())
        [Resp.http 413 none, Resp.http 200 none, Resp.http 200 none]
        ["a", "b", "c"] true
      = ((sendBatchNoSplit ⟨3, 300, 5000, true⟩ 0 (fun _ => Except.ok ())
            (sendBatchNoSplit ⟨3, 300, 5000, true⟩ 0 (fun _ => Except.ok ())
              [Resp.http 200 none, Resp.http 200 none]
              (["a", "b", "c"].take (["a", "b", "c"].length / 2))).1
            (["a", "b", "c"].drop (["a", "b", "c"].length / 2))).1,
         SendLog.app
           (SendLog.app ⟨[["a", "b", "c"]], [], []⟩
             (sendBatchNoSplit ⟨3, 300, 5000, true⟩ 0 (fun _ => Except.ok ())
               [Resp.http 200 none, Resp.http 200 none]
               (["a", "b", "c"].take (["a", "b", "c"].length / 2))).2)
           (sendBatchNoSplit ⟨3, 300, 5000, true⟩ 0 (fun _ => Except.ok ())
             (sendBatchNoSplit ⟨3, 300, 5000, true⟩ 0 (fun _ => Except.ok ())
               [Resp.http 200 none, Resp.http 200 none]
               (["a", "b", "c"].take (["a", "b", "c"].length / 2))).1
             (["a", "b", "c"].drop (["a", "b", "c"].length / 2))).2) ∧
    sendBatchWithRetry ⟨3, 300, 5000, true⟩ 0 (fun _ => Except.ok ())
        [Resp.http 413 none] ["a"] true
      = ([], ⟨[["a"]], [(["a"], some 413)], []⟩) :=
  ⟨(payload_too_large_downshift ⟨3, 300, 5000, true⟩ 0 (fun _ => Except.ok ())
      [Resp.http 200 none, Resp.http 200 none] ["a", "b", "c"] none).1
      (by decide),
   (payload_too_large_downshift ⟨3, 300, 5000, true⟩ 0 (fun _ => Except.ok ())
      [] ["a"] none).2.1 (by decide)⟩

theorem sendNow_cbIrrel (cb1 cb2 : List String → Except Unit Unit)
    (o : Oracle) (line : String) :
    sendNow cb1 o line = sendNow cb2 o line := by
  simp only [sendNow]

theorem sendNow_pathNeverRejects (cb : List String → Except Unit Unit)
    (o : Oracle) (line : String) :
    ∃ v, sendNow cb o line = Except.ok v := by
  simp only [sendNow]
  split
  · exact ⟨_, rfl⟩
  · exact ⟨_, rfl⟩

theorem sendNow_failure_reports (cb : List String → Except Unit Unit)
    (o : Oracle) (line : String) :
    sendNow cb (Resp.netErr :: o) line = Except.ok (o, [[line]], [[line]]) := by
  simp [sendNow, nextResp, swallow]

theorem browserImmediateWrite_cbIrrel (closedFlag : Bool)
    (cb1 cb2 : List String → Except Unit Unit) (o : Oracle) (line : String) :
    browserImmediateWrite closedFlag cb1 o line
      = browserImmediateWrite closedFlag cb2 o line := by
  rw [browserImmediateWrite, browserImmediateWrite,
    sendNow_cbIrrel cb1 cb2 o line]

theorem browserImmediateWrite_pathNeverRejects (closedFlag : Bool)
    (cb : List String → Except Unit Unit) (o : Oracle) (line : String) :
    ∃ v, browserImmediateWrite closedFlag cb o line = Except.ok v := by
  rw [browserImmediateWrite]
  split
  · exact ⟨_, rfl⟩
  · obtain ⟨v, hv⟩ := sendNow_pathNeverRejects cb o line
    rw [hv]
    exact ⟨v, rfl⟩

/-- C9: a throwing drop callback is swallowed at every report site of the
delivery paths — the refined `HttpSink` retry engine, the `BrowserSink`
flush loop, `BrowserSink.sendNow` and the immediate-mode `write()`: the
oracle consumed, the attempts, drops and sleeps are identical for any two
callback behaviours (in particular a throwing one); delivery of every batch
after a dropped one proceeds (the flush-loop output on a non-empty head
batch is that batch's send followed by the loop on the remaining batches);
`sendNow` reports a failed single-record delivery and still completes; and
neither `sendNow` nor the immediate-mode `write()` ever rejects, so nothing
propagates out of `write()` or `flush()`. -/
theorem drop_callback_exceptions_swallowed :
    (∀ (rp : RetryPolicy) (now : Int)
        (cb1 cb2 : List String → Except Unit Unit) (o : Oracle)
        (batches : List (List String)),
      flushDeliverHttp rp now cb1 o batches
        = flushDeliverHttp rp now cb2 o batches) ∧
    (∀ (cb1 cb2 : List String → Except Unit Unit) (o : Oracle)
        (batches : List (List String)),
      browserFlushLoop cb1 o batches = browserFlushLoop cb2 o batches) ∧
    (∀ (rp : RetryPolicy) (now : Int) (cb : List String → Except Unit Unit)
        (o : Oracle) (l : String) (ls : List String)
        (rest : List (List String)),
      flushDeliverHttp rp now cb o ((l :: ls) :: rest)
        = ((flushDeliverHttp rp now cb
              (sendBatchWithRetry rp now cb o (l :: ls) true).1 rest).1,
           SendLog.app (sendBatchWithRetry rp now cb o (l :: ls) true).2
             (flushDeliverHttp rp now cb
               (sendBatchWithRetry rp now cb o (l :: ls) true).1 rest).2)) ∧
    (∀ (cb1 cb2 : List String → Except Unit Unit) (o : Oracle)
        (line : String),
      sendNow cb1 o line = sendNow cb2 o line) ∧
    (∀ (cb : List String → Except Unit Unit) (o : Oracle) (line : String),
      sendNow cb (Resp.netErr :: o) line
        = Except.ok (o, [[line]], [[line]])) ∧
    (∀ (cb : List String → Except Unit Unit) (o : Oracle) (line : String),
      ∃ v, sendNow cb o line = Except.ok v) ∧
    (∀ (closedFlag : Bool) (cb1 cb2 : List String → Except Unit Unit)
        (o : Oracle) (line : String),
      browserImmediateWrite closedFlag cb1 o line
        = browserImmediateWrite closedFlag cb2 o line) ∧
    (∀ (closedFlag : Bool) (cb : List String → Except Unit Unit)
        (o : Oracle) (line : String),
      ∃ v, browserImmediateWrite closedFlag cb o line = Except.ok v) := by
  refine ⟨?_, ?_, ?_, ?_, ?_, ?_, ?_, ?_⟩
  · intro rp now cb1 cb2 o batches
    exact flushDeliverHttp_cb rp now cb1 cb2 batches o
  · intro cb1 cb2 o batches
    exact browserFlushLoop_cb cb1 cb2 batches o
  · intro rp now cb o l ls rest
    simp [flushDeliverHttp]
  · intro cb1 cb2 o line
    exact sendNow_cbIrrel cb1 cb2 o line
  · intro cb o line
    exact sendNow_failure_reports cb o line
  · intro cb o line
    exact sendNow_pathNeverRejects cb o line
  · intro closedFlag cb1 cb2 o line
    exact browserImmediateWrite_cbIrrel closedFlag cb1 cb2 o line
  · intro closedFlag cb o line
    exact browserImmediateWrite_pathNeverRejects closedFlag cb o line

theorem dropOldestStep_resolved (s : SinkState) :
    (dropOldestStep s).resolved = s.resolved := by
  rw [dropOldestStep]
  split <;> rfl

theorem flushCall_resolved_of_inflight (c : SinkConfig) (s : SinkState)
    (pid : Nat) (hf : s.flushInFlight = some pid) :
    (flushCall c s).1.resolved = s.resolved := by
  rw [flushCall]
  split
  · rfl
  · split
    · rfl
    · rename_i heq
      rw [hf] at heq
      exact Option.noConfusion heq

theorem writeCall_resolved_of_inflight (c : SinkConfig) (k : String)
    (s : SinkState) (pid : Nat) (hf : s.flushInFlight = some pid) :
    (writeCall c k s).1.resolved = s.resolved := by
  rw [writeCall]
  split
  · rfl
  · split
    · rfl
    · simp only
      split
      · split
        · exact flushCall_resolved_of_inflight c (pushState k s) pid hf
        · exact dropOldestStep_resolved (pushState k s)
        · rfl
      · rfl

/-- C1 (amended, refined `HttpSink` and `BrowserSink` buffered mode): while a
cycle is running, a flush call starts no second drain — it only marks the
pass request and returns the very promise of the running cycle, which is
still unsettled; and the only step that settles that promise is the
completing transport continuation: the delivery of the cycle's last
outstanding batch after which the cycle ends.  Hence all concurrent flush
callers hold one promise that resolves once, after the cycle and its
requested extra passes finish. -/
theorem guarded_flush_no_second_cycle :
    ∀ (c : SinkConfig) (s : SinkState) (cyc : Cycle),
      Wf s → s.closed = false → s.cycle = some cyc →
      (flushCall c s
        = ({ s with flushRequested := true }, .promise cyc.pid)) ∧
      cyc.pid ∉ s.resolved ∧
      ((flushCall c s).1.cycle = s.cycle) ∧
      (∀ a : Action, cyc.pid ∈ (step c s a).1.resolved →
        a = .deliver ∧ (∃ b, cyc.pending = [b]) ∧
          (step c s a).1.cycle = none) := by
  intro c s cyc hwf hcl hc
  obtain ⟨hbuf, htot, hcyc, hpid, hres⟩ := hwf
  obtain ⟨hff, hnr, hpne, hbne⟩ := hcyc cyc hc
  have hflush : flushCall c s
      = ({ s with flushRequested := true }, .promise cyc.pid) := by
    rw [flushCall, if_neg (by simp [hcl]), hff]
  refine ⟨hflush, hnr, by rw [hflush], ?_⟩
  intro a hmem
  cases a with
  | write k =>
    rw [show (step c s (.write k)).1 = (writeCall c k s).1 from rfl,
      writeCall_resolved_of_inflight c k s cyc.pid hff] at hmem
    exact absurd hmem hnr
  | flush =>
    rw [show (step c s .flush).1 = (flushCall c s).1 from rfl,
      flushCall_resolved_of_inflight c s cyc.pid hff] at hmem
    exact absurd hmem hnr
  | close =>
    have hcr : (closeCall c s).1.resolved = s.resolved := by
      rw [closeCall, if_neg (by simp [hcl])]
      exact flushCall_resolved_of_inflight c { s with closed := true }
        cyc.pid hff
    rw [show (step c s .close).1 = (closeCall c s).1 from rfl, hcr] at hmem
    exact absurd hmem hnr
  | deliver =>
    rcases hp : cyc.pending with _ | ⟨b, rest⟩
    · exact absurd hp hpne
    · rcases rest with _ | ⟨b2, rest2⟩
      · refine ⟨rfl, ⟨b, rfl⟩, ?_⟩
        show (deliverStep c s).cycle = none
        cases hreq : s.flushRequested with
        | false => simp [deliverStep, hc, hp, hreq]
        | true =>
          cases hde : (drainBatchesF s.totalBuffered c.batchSize
              s.buffers).1.isEmpty with
          | true => simp [deliverStep, hc, hp, hreq, hde]
          | false =>
            exfalso
            rw [show (step c s .deliver).1 = deliverStep c s from rfl] at hmem
            simp only [deliverStep, hc, hp] at hmem
            simp only [List.isEmpty_nil, if_true, hreq, hde] at hmem
            simp only [if_true, Bool.false_eq_true, if_false] at hmem
            exact hnr hmem
      · exfalso
        rw [show (step c s .deliver).1 = deliverStep c s from rfl] at hmem
        simp only [deliverStep, hc, hp] at hmem
        simp only [List.isEmpty_cons, if_false, Bool.false_eq_true] at hmem
        exact hnr hmem

/-- C1 witness: after one write and one flush the cycle with promise 0 runs;
a second flush call only marks the pass request and hands back promise 0,
which is not yet settled. -/
theorem guarded_flush_no_second_cycle_witness :
    (flushCall ⟨100, 1000, OverflowPolicy.autoFlush⟩
        (run ⟨100, 1000, OverflowPolicy.autoFlush⟩ [.write "a", .flush])
      = ({ run ⟨100, 1000, OverflowPolicy.autoFlush⟩ [.write "a", .flush] with
            flushRequested := true }, .promise 0)) ∧
    0 ∉ (run ⟨100, 1000, OverflowPolicy.autoFlush⟩
        [.write "a", .flush]).resolved := by
  have h := guarded_flush_no_second_cycle ⟨100, 1000, OverflowPolicy.autoFlush⟩
    (run ⟨100, 1000, OverflowPolicy.autoFlush⟩ [.write "a", .flush])
    ⟨0, [[("a", 0)]]⟩ (Wf_run _ _) (by decide) (by decide)
  exact ⟨h.1, h.2.1⟩

/-- C1 counterexample (legacy `HttpSink`, httpSink.ts lines 67-68): with a
batch in flight, a concurrent `flush()` hits `if (this.inflight) return;` —
it marks no pass request, changes nothing, and hands its caller a fresh
promise that settles immediately, while the running cycle's batch is still
outstanding; the claim's same-promise / resolve-together behaviour fails on
this sink. -/
theorem legacy_flush_guard_resolves_immediately :
    (legacyFlushCall 1
        (legacyWrite 1000 "s" 2 (legacyWrite 1000 "s" 1
          (legacyWrite 1000 "s" 0 ⟨[], false, none⟩)))).2
      = .startedCycle ∧
    (legacyFlushCall 1
        (legacyWrite 1000 "s" 2 (legacyWrite 1000 "s" 1
          (legacyWrite 1000 "s" 0 ⟨[], false, none⟩)))).1
      = ⟨[("s", 1), ("s", 2)], true, some [("s", 0)]⟩ ∧
    legacyFlushCall 1 ⟨[("s", 1), ("s", 2)], true, some [("s", 0)]⟩
      = (⟨[("s", 1), ("s", 2)], true, some [("s", 0)]⟩,
         .resolvesImmediately) := by
  refine ⟨by decide, by decide, by decide⟩

/-- C2: with any overflow policy other than drop-oldest, per destination key
the batches handed to the transport so far, the batches drained but still
inside the running cycle, and the key's buffered queue concatenate, in that
order, to exactly the accepted writes of that key in write order — so
delivery order preserves write order with no reordering or duplication; once
the sink is idle and the key's queue empty, the delivered concatenation
equals the full write sequence. -/
theorem order_preservation (c : SinkConfig) (acts : List Action) (k : String)
    (hpol : c.policy ≠ OverflowPolicy.dropOldest) :
    (restrictKey k (run c acts).delivered
        ++ restrictKey k (pendingBatches (run c acts))
        ++ queueOf (run c acts).buffers k
      = (run c acts).accepted.filter (fun e => e.1 == k)) ∧
    ((run c acts).cycle = none → queueOf (run c acts).buffers k = [] →
      restrictKey k (run c acts).delivered
        = (run c acts).accepted.filter (fun e => e.1 == k)) := by
  have h := KeyTrace_run c k acts hpol
  rw [KeyTrace] at h
  refine ⟨h, fun hcy hq => ?_⟩
  rw [pendingBatches] at h
  simp only [hcy] at h
  rw [restrictKey_nil, hq] at h
  simpa using h

/-- C2 witness: three writes on two keys, a flush and full delivery — key
"a"'s records come out in write order. -/
theorem order_preservation_witness :
    restrictKey "a" (run ⟨2, 1000, OverflowPolicy.autoFlush⟩
        [.write "a", .write "b", .write "a", .flush, .deliver,
          .deliver]).delivered
      = (run ⟨2, 1000, OverflowPolicy.autoFlush⟩
          [.write "a", .write "b", .write "a", .flush, .deliver,
            .deliver]).accepted.filter (fun e => e.1 == "a") :=
  (order_preservation ⟨2, 1000, OverflowPolicy.autoFlush⟩
    [.write "a", .write "b", .write "a", .flush, .deliver, .deliver] "a"
    (by decide)).2 (by decide) (by decide)

/-- C3 failing input: a `flush()` on an empty buffer completes synchronously,
so the `finally { this.flushInFlight = null }` runs before the outer
assignment and the field keeps the already-settled promise 0.  A later write
buffers one record; `close()` then finds `flushInFlight` truthy, marks a pass
request, and awaits the stale settled promise — it resolves with the record
still buffered and no cycle running, contradicting the drains-to-empty close
contract the code itself documents. -/
theorem close_wedged_after_empty_flush :
    (closeCall ⟨100, 1000, OverflowPolicy.autoFlush⟩
        (run ⟨100, 1000, OverflowPolicy.autoFlush⟩ [.flush, .write "a"])).2
      = .promise 0 ∧
    0 ∈ (closeCall ⟨100, 1000, OverflowPolicy.autoFlush⟩
        (run ⟨100, 1000, OverflowPolicy.autoFlush⟩
          [.flush, .write "a"])).1.resolved ∧
    (closeCall ⟨100, 1000, OverflowPolicy.autoFlush⟩
        (run ⟨100, 1000, OverflowPolicy.autoFlush⟩
          [.flush, .write "a"])).1.closed = true ∧
    (closeCall ⟨100, 1000, OverflowPolicy.autoFlush⟩
        (run ⟨100, 1000, OverflowPolicy.autoFlush⟩
          [.flush, .write "a"])).1.totalBuffered = 1 ∧
    queueOf (closeCall ⟨100, 1000, OverflowPolicy.autoFlush⟩
        (run ⟨100, 1000, OverflowPolicy.autoFlush⟩
          [.flush, .write "a"])).1.buffers "a" = [("a", 0)] ∧
    (closeCall ⟨100, 1000, OverflowPolicy.autoFlush⟩
        (run ⟨100, 1000, OverflowPolicy.autoFlush⟩
          [.flush, .write "a"])).1.cycle = none := by
  refine ⟨by decide, by decide, by decide, by decide, by decide, by decide⟩

/-- C8 (amended): under drop-oldest, a write at capacity evicts the head of
the first key in map insertion order that has pending records (the oldest
within that key, an O(n) approximation of the globally oldest), decrements
the total back to capacity, and starts no flush — the cycle field is
untouched and the call returns void. -/
theorem dropOldest_first_nonempty_eviction :
    ∀ (c : SinkConfig) (k : String) (s : SinkState),
      Wf s → c.policy = OverflowPolicy.dropOldest → s.closed = false →
      s.totalBuffered = c.maxBuffer →
      (writeCall c k s
        = ({ pushState k s with
              buffers := dropOldestFn (pushState k s).buffers
              totalBuffered := c.maxBuffer }, .unit)) ∧
      (∃ pre k0 e t rest,
        (pushState k s).buffers = pre ++ (k0, e :: t) :: rest ∧
        (∀ p ∈ pre, p.2 = []) ∧
        dropOldestFn (pushState k s).buffers = pre ++ (k0, t) :: rest) ∧
      (writeCall c k s).1.cycle = s.cycle := by
  intro c k s hwf hpol hcl hcap
  have h1 : totalCount (pushState k s).buffers = totalCount s.buffers + 1 :=
    totalCount_writeBuf s.buffers k (k, s.nextSeq)
  have hne : allEmpty (pushState k s).buffers = false := by
    cases hae : allEmpty (pushState k s).buffers with
    | false => rfl
    | true =>
      have h0 := (allEmpty_iff_totalCount _).mp hae
      omega
  have hmain : writeCall c k s
      = ({ pushState k s with
            buffers := dropOldestFn (pushState k s).buffers
            totalBuffered := c.maxBuffer }, .unit) := by
    rw [writeCall, if_neg (by simp [hcl]), if_neg (by simp [hpol])]
    simp only
    rw [if_pos (show c.maxBuffer < (pushState k s).totalBuffered from by
      show c.maxBuffer < s.totalBuffered + 1
      omega)]
    rw [hpol]
    show (dropOldestStep (pushState k s), CallRet.unit) = _
    rw [dropOldestStep, if_neg (by simp [hne])]
    have h2 : (pushState k s).totalBuffered - 1 = c.maxBuffer := by
      show s.totalBuffered + 1 - 1 = c.maxBuffer
      omega
    rw [h2]
  refine ⟨hmain, dropOldestFn_characterization _ hne, ?_⟩
  rw [hmain]
  rfl

/-- C8 witness: at capacity 2 with keys "a", "b" buffered, a write to a
fresh key "c" evicts via `dropOldest`, lands back at capacity, and leaves the
cycle untouched. -/
theorem dropOldest_first_nonempty_eviction_witness :
    writeCall ⟨1, 2, OverflowPolicy.dropOldest⟩ "c"
        (run ⟨1, 2, OverflowPolicy.dropOldest⟩ [.write "a", .write "b"])
      = ({ pushState "c"
            (run ⟨1, 2, OverflowPolicy.dropOldest⟩ [.write "a", .write "b"])
            with
            buffers := dropOldestFn (pushState "c"
              (run ⟨1, 2, OverflowPolicy.dropOldest⟩
                [.write "a", .write "b"])).buffers
            totalBuffered := 2 }, .unit) :=
  (dropOldest_first_nonempty_eviction ⟨1, 2, OverflowPolicy.dropOldest⟩ "c"
    (run ⟨1, 2, OverflowPolicy.dropOldest⟩ [.write "a", .write "b"])
    (Wf_run _ _) rfl (by decide) (by decide)).1

/-- C8 counterexample: key "a" drains and is left empty but first in map
insertion order; then "b" receives the older surviving record (seq 1) and
"a" two newer ones (seq 2, 3).  The overflowing write evicts seq 2 from "a"
— the head of the first non-empty key — although the globally oldest
surviving record is seq 1 in "b", which stays buffered; the total still
returns to capacity and no flush starts. -/
theorem dropOldest_not_globally_oldest :
    (run ⟨1, 2, OverflowPolicy.dropOldest⟩
        [.write "a", .flush, .deliver, .write "b", .write "a",
          .write "a"]).buffers
      = [("a", [("a", 3)]), ("b", [("b", 1)])] ∧
    (run ⟨1, 2, OverflowPolicy.dropOldest⟩
        [.write "a", .flush, .deliver, .write "b", .write "a",
          .write "a"]).delivered = [[("a", 0)]] ∧
    (run ⟨1, 2, OverflowPolicy.dropOldest⟩
        [.write "a", .flush, .deliver, .write "b", .write "a",
          .write "a"]).accepted
      = [("a", 0), ("b", 1), ("a", 2), ("a", 3)] ∧
    (run ⟨1, 2, OverflowPolicy.dropOldest⟩
        [.write "a", .flush, .deliver, .write "b", .write "a",
          .write "a"]).totalBuffered = 2 ∧
    (run ⟨1, 2, OverflowPolicy.dropOldest⟩
        [.write "a", .flush, .deliver, .write "b", .write "a",
          .write "a"]).cycle = none := by
  refine ⟨by decide, by decide, by decide, by decide, by decide⟩

end Tracer
